import Mathlib

/-!
Shallow embedding of the `canary` scripting-language core, translated from
the Rust sources:

* `Backpat` — the backtracking pattern engine of `backpat/src/lib.rs` and
  its parser's character-class routine from `backpat/src/parse.rs`.
  The haystack is modelled as a `List Char` and all offsets count code
  points; the Rust code counts UTF-8 bytes (`len_utf8`, `String::len`),
  which is order-isomorphic to the code-point count since every offset is
  reached by advancing over whole characters.
* `Canary` — the value domain of `src/value.rs`, the function-call arity
  check of `src/opcode.rs`, the bytecode interpreter of `src/eval.rs` and
  the short-circuit code shapes emitted by `src/build.rs`.
-/

namespace Backpat

/-- The `type Captures = Vec<(GroupNumber, usize, usize)>`; the group number
(`u8` in the source) is modelled as `Nat`. -/
abbrev Captures := List (Nat × Nat × Nat)

/-- The `enum Repeat` from `backpat/src/parse.rs`. -/
inductive Rep where
  | oneOrZero
  | zeroOrMore
  | oneOrMore
  | count (n : Nat)
deriving DecidableEq, Repr

/-- The `enum Class` from `backpat/src/parse.rs`; the `HashSet<char>` of members
is modelled as a `List Char` consumed only through membership tests. -/
inductive Class where
  | dot
  | digit
  | word
  | space
  | custom (invert : Bool) (members : List Char)
deriving DecidableEq, Repr

mutual
/-- The `struct Group<Payload>` from `backpat/src/parse.rs`. -/
inductive Group (P : Type) where
  | mk (number : Nat) (branches : List (Branch P))

/-- The `struct Branch<Payload>` from `backpat/src/parse.rs`. -/
inductive Branch (P : Type) where
  | mk (leaves : List (Leaf P))

/-- The `enum Leaf<Payload>` from `backpat/src/parse.rs`; `rep` is
`Leaf::Repeat` (`prefix`/`times`/`suffix`), `cls` is `Leaf::Class`. -/
inductive Leaf (P : Type) where
  | group (g : Group P)
  | raw (s : List Char)
  | cls (c : Class)
  | anchorStart
  | anchorEnd
  | rep (pre : Leaf P) (times : Rep) (suffix : Branch P)
  | payload (p : P)
end

/-- The `struct Ast<Payload>` from `backpat/src/parse.rs`. -/
structure Ast (P : Type) where
  root : Group P
  ignoreCase : Bool

/-- The matcher runs on patterns whose payloads are already specialized to
strings (`P: AsRef<str>`, instantiated at `Str` by the interpreter); a
string is a `List Char` here. -/
abbrev Str' := List Char

def Group.number : Group P → Nat
  | .mk n _ => n

def Group.branches : Group P → List (Branch P)
  | .mk _ bs => bs

def Branch.leaves : Branch P → List (Leaf P)
  | .mk ls => ls

/-- The `struct Matcher` from `backpat/src/lib.rs`. -/
structure Matcher where
  haystack : List Char
  captures : Captures
  ignoreCase : Bool
  right : Nat
deriving DecidableEq, Repr

/-- The `struct Checkpoint` from `backpat/src/lib.rs`. -/
structure Checkpoint where
  right : Nat
  captures : Nat
deriving DecidableEq, Repr

/-- The `Matcher::mark`. -/
def Matcher.mark (m : Matcher) : Checkpoint :=
  { right := m.right, captures := m.captures.length }

/-- The `Matcher::recall`: `self.right = right; self.captures.drain(captures ..)`. -/
def Matcher.recall (m : Matcher) (here : Checkpoint) : Matcher :=
  { m with right := here.right, captures := m.captures.take here.captures }

/-- The `Matcher::capture`: push `(num, here.right, self.right)` unless a
capture with number `num` is already present. -/
def Matcher.capture (m : Matcher) (num : Nat) (here : Checkpoint) : Matcher :=
  if m.captures.any (fun e => e.1 == num) then m
  else { m with captures := m.captures ++ [(num, here.right, m.right)] }

/-- The `Matcher::get_char`: read the code point at `right` and advance past it
(the source advances by `len_utf8`; here one code point is one unit). -/
def Matcher.getChar (m : Matcher) : Option Char × Matcher :=
  match m.haystack.drop m.right with
  | [] => (none, m)
  | c :: _ => (some c, { m with right := m.right + 1 })

/-- The `eq_ignore_case` from `backpat/src/lib.rs`; the per-code-point
`to_lowercase` iterator comparison is modelled with `Char.toLower`. -/
def eqIgnoreCase (lhs rhs : Char) : Bool :=
  lhs == rhs || lhs.toLower == rhs.toLower

/-- The `Matcher::check_char`. -/
def Matcher.checkChar (m : Matcher) (needle : Char) : Bool × Matcher :=
  match m.getChar with
  | (none, m') => (false, m')
  | (some ch, m') =>
      (if m'.ignoreCase then eqIgnoreCase needle ch else needle == ch, m')

/-- The case-insensitive arm of `Matcher::check_str`:
`string.chars().all(|ch| self.check_char(ch))` (short-circuits on the first
mismatch, leaving the state advanced through the failing character). -/
def Matcher.checkStrCi (m : Matcher) : List Char → Bool × Matcher
  | [] => (true, m)
  | c :: cs =>
      match m.checkChar c with
      | (true, m') => m'.checkStrCi cs
      | (false, m') => (false, m')

/-- The `Matcher::check_str`. -/
def Matcher.checkStr (m : Matcher) (s : List Char) : Bool × Matcher :=
  if m.ignoreCase then m.checkStrCi s
  else if s.isPrefixOf (m.haystack.drop m.right) then
    (true, { m with right := m.right + s.length })
  else (false, m)

/-- The `Matcher::check_class`: consume one code point, then test it. -/
def Matcher.checkClass (m : Matcher) (c : Class) : Bool × Matcher :=
  match m.getChar with
  | (none, m') => (false, m')
  | (some ch, m') =>
      match c with
      | .dot => (true, m')
      | .digit => (ch.isDigit, m')
      | .word => (ch.isAlpha, m')
      | .space => (ch.isWhitespace, m')
      | .custom invert members =>
          (if invert then members.all (fun mem => ch != mem)
           else members.any (fun mem => ch == mem), m')

/-- The `(min, max)` table at the head of `Matcher::repeat`. -/
def repBounds : Rep → Nat × Option Nat
  | .oneOrZero => (0, some 1)
  | .zeroOrMore => (0, none)
  | .oneOrMore => (1, none)
  | .count n => (n, some n)

/-- The `for _ in 0 .. min` loop of `Matcher::repeat`: match the prefix
exactly `n` more times, propagating failure. -/
def repeatMin (check : Matcher → Bool × Matcher) : Nat → Matcher → Bool × Matcher
  | 0, m => (true, m)
  | n + 1, m =>
      match check m with
      | (true, m') => repeatMin check n m'
      | (false, m') => (false, m')

/-- The `for _ in min .. max` loop of `Matcher::repeat`: push a checkpoint,
attempt the prefix once more, stop at the first failure.  The checkpoint is
pushed before the attempt, so it is on the stack even when the attempt
fails; the newest checkpoint is the head of the returned list. -/
def repeatGrow (check : Matcher → Bool × Matcher) :
    Nat → List Checkpoint → Matcher → List Checkpoint × Matcher
  | 0, stack, m => (stack, m)
  | n + 1, stack, m =>
      let here := m.mark
      match check m with
      | (true, m') => repeatGrow check n (here :: stack) m'
      | (false, m') => (here :: stack, m')

/-- The `while let Some(here) = stack.pop()` loop of `Matcher::repeat` and
the final suffix attempt: try the suffix, on failure recall the popped
checkpoint and continue. -/
def repeatGive (checkSuffix : Matcher → Bool × Matcher) :
    List Checkpoint → Matcher → Bool × Matcher
  | [], m => checkSuffix m
  | here :: rest, m =>
      match checkSuffix m with
      | (true, m') => (true, m')
      | (false, m') => repeatGive checkSuffix rest (m'.recall here)

mutual
/-- The `Matcher::check_group`: checkpoint, try each branch in order; on the
first success record a capture, on failure recall. -/
def checkGroup (g : Group Str') (m : Matcher) : Bool × Matcher :=
  match g with
  | .mk number branches => goBranches number m.mark branches m

/-- The branch loop inside `Matcher::check_group`. -/
def goBranches (number : Nat) (here : Checkpoint) :
    List (Branch Str') → Matcher → Bool × Matcher
  | [], m => (false, m)
  | b :: rest, m =>
      match checkBranch b m with
      | (true, m') => (true, m'.capture number here)
      | (false, m') => goBranches number here rest (m'.recall here)

/-- The `Matcher::check_branch`: leaves left to right, any failure fails. -/
def checkBranch (b : Branch Str') (m : Matcher) : Bool × Matcher :=
  match b with
  | .mk leaves => goLeaves leaves m

/-- The leaf loop inside `Matcher::check_branch`. -/
def goLeaves : List (Leaf Str') → Matcher → Bool × Matcher
  | [], m => (true, m)
  | l :: ls, m =>
      match checkLeaf l m with
      | (true, m') => goLeaves ls m'
      | (false, m') => (false, m')

/-- The `Matcher::check_leaf` together with `Matcher::repeat`. -/
def checkLeaf (l : Leaf Str') (m : Matcher) : Bool × Matcher :=
  match l with
  | .anchorStart => (decide (m.right = 0), m)
  | .anchorEnd => (decide (m.right = m.haystack.length), m)
  | .group g => checkGroup g m
  | .raw s => m.checkStr s
  | .cls c => m.checkClass c
  | .payload s => m.checkStr s
  | .rep pre times suffix =>
      let (min, maxOpt) := repBounds times
      let max := maxOpt.getD (m.haystack.drop m.right).length
      match repeatMin (fun mm => checkLeaf pre mm) min m with
      | (false, m1) => (false, m1)
      | (true, m1) =>
          match repeatGrow (fun mm => checkLeaf pre mm) (max - min) [] m1 with
          | (stack, m2) => repeatGive (fun mm => checkBranch suffix mm) stack m2
end

/-- The `for (left, _) in haystack.char_indices()` loop of
`Matcher::check_root`: at each start offset, view the suffix, reset `right`
to 0, and try the root group; captures persist across iterations exactly as
in the source (a failed attempt restores them through `recall`). -/
def rootLoop (root : Group Str') (orig : List Char) (ic : Bool) :
    List Nat → Captures → Option Captures
  | [], _ => none
  | left :: rest, caps =>
      match checkGroup root { haystack := orig.drop left, captures := caps, ignoreCase := ic, right := 0 } with
      | (true, m') => some m'.captures
      | (false, m') => rootLoop root orig ic rest m'.captures

/-- The `Ast::matches` composed with `Matcher::check_root`: the start offsets of
`char_indices` are the code-point indices `0, …, len-1`. -/
def Ast.matches (a : Ast Str') (h : List Char) : Option Captures :=
  rootLoop a.root h a.ignoreCase (List.range h.length) []

/-- The root-group attempt at a single start offset: the state
`Matcher::check_root` builds for offset `left` on the first iteration
(fresh captures), handed to `Matcher::check_group`. -/
def Ast.matchesAt (a : Ast Str') (h : List Char) (left : Nat) : Bool × Matcher :=
  checkGroup a.root { haystack := h.drop left, captures := [], ignoreCase := a.ignoreCase, right := 0 }

mutual
/-- The group numbers syntactically present in a group (its own number and
those of all nested groups). -/
def groupNums : Group P → List Nat
  | .mk number branches => number :: branchesNums branches

def branchesNums : List (Branch P) → List Nat
  | [] => []
  | b :: bs => branchNums b ++ branchesNums bs

def branchNums : Branch P → List Nat
  | .mk leaves => leavesNums leaves

def leavesNums : List (Leaf P) → List Nat
  | [] => []
  | l :: ls => leafNums l ++ leavesNums ls

def leafNums : Leaf P → List Nat
  | .group g => groupNums g
  | .rep pre _ suffix => leafNums pre ++ branchNums suffix
  | _ => []
end

/-! ### Character-class parsing (`Parser::parse_class`, `backpat/src/parse.rs`)

The parser's token stream is modelled as a `List Char`; `consume` takes the
head, `lookahead` peeks at it.  `Error::Bad` is the parser's only error. -/

/-- The `enum Error` from `backpat/src/parse.rs`. -/
inductive PError where
  | bad
deriving DecidableEq, Repr

/-- The `for ch in prev .. next` loop in the range arm of
`Parser::parse_class`: insert the `n` code points starting at `lo`,
failing (`from_u32` → `Error::Bad`) on an invalid code point. -/
def insertRange (members : List Char) : Nat → Nat → Except PError (List Char)
  | _, 0 => .ok members
  | lo, n + 1 =>
      if h : lo.isValidChar then
        insertRange (members.insert (Char.ofNatAux lo h)) (lo + 1) n
      else .error .bad

/-- The loop of `Parser::parse_class`, carrying its `prev`, `invert` and
`members` state; returns the parsed class and the unconsumed input. -/
def parseClassGo (prev : Option Char) (invert : Bool) (members : List Char) :
    List Char → Except PError ((Bool × List Char) × List Char)
  | [] => .error .bad
  | ch :: rest =>
      if ch = ']' then .ok ((invert, members), rest)
      else if ch = '^' && prev.isNone then parseClassGo none true members rest
      else if ch = '-' then
        match rest with
        | [] => .error .bad
        | next :: rest2 =>
            if next ≠ ']' then
              match prev with
              | some p =>
                  if p.toNat ≥ next.toNat then .error .bad
                  else
                    match insertRange members p.toNat (next.toNat - p.toNat) with
                    | .error e => .error e
                    | .ok members' => parseClassGo none invert members' rest2
              | none => parseClassGo (some '-') invert (members.insert '-') (next :: rest2)
            else parseClassGo (some '-') invert (members.insert '-') (next :: rest2)
      else parseClassGo (some ch) invert (members.insert ch) rest

/-- The `Parser::parse_class`: parse a class body (everything after the opening
`[`), producing the `invert` flag and member set of `Class::Custom`. -/
def parseClass (input : List Char) : Except PError ((Bool × List Char) × List Char) :=
  parseClassGo none false [] input

/-! ### Structural equality on patterns

`PartialEq` as derived in the source: sequences compare pointwise, the
`HashSet<char>` of `Class::Custom` compares as a set. -/

/-- Set equality of custom-class member sets (`HashSet<char>: PartialEq`). -/
def memberSetEq (a b : List Char) : Bool :=
  a.all (fun c => b.contains c) && b.all (fun c => a.contains c)

/-- The `PartialEq` for `Class`. -/
def classBeq : Class → Class → Bool
  | .dot, .dot => true
  | .digit, .digit => true
  | .word, .word => true
  | .space, .space => true
  | .custom i1 m1, .custom i2 m2 => i1 == i2 && memberSetEq m1 m2
  | _, _ => false

mutual
/-- The `PartialEq` for `Group`. -/
def groupBeq : Group Str' → Group Str' → Bool
  | .mk n1 bs1, .mk n2 bs2 => n1 == n2 && branchListBeq bs1 bs2

def branchListBeq : List (Branch Str') → List (Branch Str') → Bool
  | [], [] => true
  | b1 :: r1, b2 :: r2 => branchBeq b1 b2 && branchListBeq r1 r2
  | _, _ => false

/-- The `PartialEq` for `Branch`. -/
def branchBeq : Branch Str' → Branch Str' → Bool
  | .mk l1, .mk l2 => leafListBeq l1 l2

def leafListBeq : List (Leaf Str') → List (Leaf Str') → Bool
  | [], [] => true
  | l1 :: r1, l2 :: r2 => leafBeq l1 l2 && leafListBeq r1 r2
  | _, _ => false

/-- The `PartialEq` for `Leaf`. -/
def leafBeq : Leaf Str' → Leaf Str' → Bool
  | .group g1, .group g2 => groupBeq g1 g2
  | .raw s1, .raw s2 => s1 == s2
  | .cls c1, .cls c2 => classBeq c1 c2
  | .anchorStart, .anchorStart => true
  | .anchorEnd, .anchorEnd => true
  | .rep p1 t1 s1, .rep p2 t2 s2 => leafBeq p1 p2 && t1 == t2 && branchBeq s1 s2
  | .payload p1, .payload p2 => p1 == p2
  | _, _ => false
end

/-- The `PartialEq` for `Ast`. -/
def astBeq (a b : Ast Str') : Bool :=
  groupBeq a.root b.root && a.ignoreCase == b.ignoreCase

end Backpat

namespace Canary

open Backpat

/-! ### Value domain (`src/value.rs`)

Shared mutable containers (`List = Arc<RefCell<VecDeque<Value>>>`,
`Record = Arc<RefCell<HashMap<Ident, Value>>>`) are modelled by their
contents: this value-semantics embedding does not track aliasing, which no
claim below depends on.  `Record` is an association list; `Ident` and the
interned `Str` are plain strings. -/

/-- The `enum Argc` from `src/opcode.rs`. -/
inductive Argc where
  | exactly (n : Nat)
  | atLeast (n : Nat)
deriving DecidableEq, Repr

/-- The `enum Error` from `src/lib.rs` (the variants the embedded core can
produce).  `panicked` is not a source variant: it marks executions on which
the Rust code panics (aborts the process) rather than return an `Err`. -/
inductive Error where
  | stackUnderflow
  | wrongArgc (func : String) (expected : Argc) (found : Nat)
  | typeMismatch (expected : String) (found : String)
  | illegalAdd
  | illegalMultiply
  | dividedByZero
  | negativeRepetition
  | negativeIndex
  | indexOutOfBounds
  | localVarOutOfBounds (index : Nat)
  | listTooLong
  | markTooHigh
  | poppedLocalVar
  | noSuchGroup (num : Nat)
  | noSuchGlobal
  | noSuchLabel
  | assertFailed (expr : String)
  | panicked
deriving DecidableEq, Repr

/-- The `enum Value` from `src/value.rs`.  The source file predates the
pattern-matching opcodes of `src/eval.rs`, which push compiled patterns as
values; the `pat` case is modelled from the spec: "Pattern (shared,
immutable, a compiled matcher)", carrying the specialized pattern the
matcher of `backpat/src/lib.rs` runs on. -/
inductive Value where
  | nil
  | int (i : Int)
  | str (s : String)
  | ident (id : String)
  | list (elems : List Value)
  | record (fields : List (String × Value))
  | pat (p : Ast Str')

mutual
/-- The `PartialEq` for `Value` (contents compared through the shared
handles). -/
def Value.beq : Value → Value → Bool
  | .nil, .nil => true
  | .int a, .int b => a == b
  | .str a, .str b => a == b
  | .ident a, .ident b => a == b
  | .list a, .list b => valueListBeq a b
  | .record a, .record b => fieldListBeq a b
  | .pat a, .pat b => astBeq a b
  | _, _ => false

def valueListBeq : List Value → List Value → Bool
  | [], [] => true
  | v :: r, w :: s => Value.beq v w && valueListBeq r s
  | _, _ => false

def fieldListBeq : List (String × Value) → List (String × Value) → Bool
  | [], [] => true
  | (k1, v1) :: r, (k2, v2) :: s => k1 == k2 && Value.beq v1 v2 && fieldListBeq r s
  | _, _ => false
end

/-- The `Value::type_name`. -/
def Value.typeName : Value → String
  | .nil => "Nil"
  | .int _ => "Int"
  | .str _ => "Str"
  | .ident _ => "Ident"
  | .list _ => "List"
  | .record _ => "Record"
  | .pat _ => "Pattern"

/-- The `Int::extract` (the `Extract` impl generated by `impl_value!`). -/
def extractInt : Value → Except Error Int
  | .int i => .ok i
  | other => .error (.typeMismatch "Int" other.typeName)

/-- The `Str::extract`. -/
def extractStr : Value → Except Error String
  | .str s => .ok s
  | other => .error (.typeMismatch "Str" other.typeName)

/-- The `Pattern::extract`. -/
def extractPat : Value → Except Error (Ast Str')
  | .pat p => .ok p
  | other => .error (.typeMismatch "Pattern" other.typeName)

/-- Modelled from the spec: the truthiness coercion behind
`pop::<bool>()` in `src/eval.rs` (`impl Extract for bool` is absent from
the sources).  The spec requires `nil or 7` to evaluate to `7` and calls
`JNZ` "truthy-consuming", so `Nil` and `Int 0` are falsy and every other
value is truthy. -/
def extractBool : Value → Bool
  | .nil => false
  | .int i => i != 0
  | _ => true

/-- Modelled from the spec: the `From<bool>` conversion behind
`push(true)` in `src/eval.rs` (absent from the sources); booleans are the
integers `1` and `0`, matching the integer-based `assert` of
`src/opcode.rs`. -/
def boolToValue (b : Bool) : Value :=
  if b then .int 1 else .int 0

/-! ### `Display for Value` (`src/value.rs`), used by `STR` and string
coercion.  The `Pattern` arm is absent from `src/value.rs`; it is rendered
with the `Display` impl of `backpat/src/parse.rs` (`re/…/flags`). -/

/-- The `magic` from `backpat/src/parse.rs`. -/
def magicChars : List Char :=
  ['(', ')', '[', ']', '\x7b', '\x7d', '|', '.', '?', '+', '*', '/', '^', '$', '\\']

/-- The `Display` impl for `Leaf::Raw`: escape magic characters. -/
def rawDisplay : List Char → String
  | [] => ""
  | c :: cs =>
      (if magicChars.contains c then "\\" ++ String.singleton c
       else String.singleton c) ++ rawDisplay cs

mutual
/-- The `Display` for `Group`: branches joined with `|`. -/
def groupDisplay : Backpat.Group Str' → String
  | .mk _ branches => String.intercalate "|" (branchListDisplay branches)

def branchListDisplay : List (Branch Str') → List String
  | [] => []
  | b :: bs => branchDisplay b :: branchListDisplay bs

/-- The `Display` for `Branch`: leaves concatenated. -/
def branchDisplay : Branch Str' → String
  | .mk leaves => leafListDisplay leaves

def leafListDisplay : List (Leaf Str') → String
  | [] => ""
  | l :: ls => leafDisplay l ++ leafListDisplay ls

/-- The `Display` for `Leaf`. -/
def leafDisplay : Leaf Str' → String
  | .group g => "(" ++ groupDisplay g ++ ")"
  | .raw s => rawDisplay s
  | .anchorStart => "^"
  | .anchorEnd => "$"
  | .cls c =>
      match c with
      | .dot => "."
      | .digit => "\\d"
      | .space => "\\s"
      | .word => "\\w"
      | .custom invert members =>
          if invert then "[^" ++ String.mk members ++ "]"
          else "[" ++ String.mk members ++ "]"
  | .rep pre times suffix =>
      leafDisplay pre ++
      (match times with
       | .oneOrZero => "?"
       | .oneOrMore => "+"
       | .zeroOrMore => "*"
       | .count _ => "\x7b...\x7d") ++
      branchDisplay suffix
  | .payload p => String.mk p
end

/-- The `Display` for `Ast`. -/
def astDisplay (a : Ast Str') : String :=
  "re/" ++ groupDisplay a.root ++ "/" ++ (if a.ignoreCase then "i" else "")

mutual
/-- The `Display for Value` from `src/value.rs`. -/
def Value.display : Value → String
  | .nil => "nil"
  | .int i => toString i
  | .str s => s
  | .ident id => id
  | .list l => "[" ++ String.intercalate ", " (valueListDisplay l) ++ "]"
  | .record fields => "\x7b " ++ String.intercalate ", " (fieldListDisplay fields) ++ " \x7d"
  | .pat p => astDisplay p

def valueListDisplay : List Value → List String
  | [] => []
  | v :: vs => Value.display v :: valueListDisplay vs

def fieldListDisplay : List (String × Value) → List String
  | [] => []
  | (k, v) :: fs => (k ++ ": " ++ Value.display v) :: fieldListDisplay fs
end

/-- The element store `lhs[rhs] = val` of `VecDeque`'s `IndexMut`, which
panics when the index is out of range: `none` marks the panic. -/
def vecSet (l : List Value) (i : Nat) (v : Value) : Option (List Value) :=
  if i < l.length then some (l.set i v) else none

/-- Insert-or-update on a record's fields
(`*lhs.entry(key).or_insert(().into()) = val`). -/
def recordInsert (fields : List (String × Value)) (key : String) (v : Value) :
    List (String × Value) :=
  if fields.any (fun f => f.1 == key) then
    fields.map (fun f => if f.1 == key then (f.1, v) else f)
  else fields ++ [(key, v)]

/-- The `Value::insert` from `src/value.rs`.  The result is the updated
container (`Ok(())` in the source, which mutates through the handle);
`.ok none` marks the execution on which the source panics in the
element store. -/
def Value.insert : Value → Value → Value → Except Error (Option Value)
  | .list lhs, key, val => do
      let key ← extractInt key
      if key < 0 then .error .negativeIndex
      else
        let rhs := key.toNat
        if rhs > lhs.length then .error .indexOutOfBounds
        else
          match vecSet lhs rhs val with
          | some lhs' => .ok (some (.list lhs'))
          | none => .ok none
  | .record lhs, key, val =>
      match key with
      | .ident key => .ok (some (.record (recordInsert lhs key val)))
      | other => .error (.typeMismatch "Ident" other.typeName)
  | other, _, _ => .error (.typeMismatch "List|Record" other.typeName)

/-- The `Value::index` from `src/value.rs`. -/
def Value.index : Value → Value → Except Error Value
  | .list lhs, rhs => do
      let rhs ← extractInt rhs
      if rhs < 0 then .error .negativeIndex
      else
        match lhs.get? rhs.toNat with
        | some v => .ok v
        | none => .error .indexOutOfBounds
  | .record lhs, rhs =>
      match rhs with
      | .ident key =>
          match lhs.lookup key with
          | some v => .ok v
          | none => .error .indexOutOfBounds
      | other => .error (.typeMismatch "Ident" other.typeName)
  | other, _ => .error (.typeMismatch "List|Record" other.typeName)

/-- The `impl Add for Value` from `src/value.rs` (lines 144–177).  Machine
`i32` arithmetic is modelled on unbounded integers; no claim involves
overflow. -/
def Value.add : Value → Value → Except Error Value
  | .int lhs, rhs => do
      let rhs ← extractInt rhs
      .ok (.int (lhs + rhs))
  | .list lhs, rhs =>
      match rhs with
      | .list rhs => .ok (.list (lhs ++ rhs))
      | other => .ok (.list [other])
  | .str lhs, rhs => .ok (.str (lhs ++ rhs.display))
  | _, _ => .error .illegalAdd

/-- The `impl Sub for Value`. -/
def Value.sub (lhs rhs : Value) : Except Error Value := do
  let lhs ← extractInt lhs
  let rhs ← extractInt rhs
  .ok (.int (lhs - rhs))

/-- The `impl Div for Value` (`Int::div` truncates toward zero, matching
Rust's `/` on `i32`). -/
def Value.div : Value → Value → Except Error Value
  | _, .int 0 => .error .dividedByZero
  | .int lhs, .int rhs => .ok (.int (Int.tdiv lhs rhs))
  | _, other => .error (.typeMismatch "Int" other.typeName)

/-- The `impl Mul for Value`. -/
def Value.mul : Value → Value → Except Error Value
  | lhs, rhs => do
      let rhs ← extractInt rhs
      match lhs with
      | .int lhs => .ok (.int (lhs * rhs))
      | .str lhs =>
          if rhs < 0 then .error .negativeRepetition
          else .ok (.str (String.join (List.replicate rhs.toNat lhs)))
      | _ => .error .illegalMultiply


/-! ### Pattern expressions and specialization

`pattern::Var` (`src/pattern.rs`) with locals already resolved to slot
indices (`Var<usize>`), and `Ast::map` (`backpat/src/compile.rs`).  The
in-tree `map` predates the `suffix` field of `Leaf::Repeat`; the `rep`
case maps the suffix branch alongside the prefix, as `src/eval.rs`'s use
of the three-field leaves requires. -/

/-- The `enum Var<Local>` from `src/pattern.rs`, at `Local = usize`. -/
inductive Var where
  | localVar (name : Nat)
  | globalVar (name : String)

mutual
/-- The `Group::map` from `backpat/src/compile.rs`. -/
def groupMapVar (f : Var → Except Error Str') :
    Backpat.Group Var → Except Error (Backpat.Group Str')
  | .mk number branches => do
      .ok (.mk number (← branchesMapVar f branches))

def branchesMapVar (f : Var → Except Error Str') :
    List (Branch Var) → Except Error (List (Branch Str'))
  | [] => .ok []
  | b :: bs => do
      .ok ((← branchMapVar f b) :: (← branchesMapVar f bs))

def branchMapVar (f : Var → Except Error Str') :
    Branch Var → Except Error (Branch Str')
  | .mk leaves => do
      .ok (.mk (← leavesMapVar f leaves))

def leavesMapVar (f : Var → Except Error Str') :
    List (Leaf Var) → Except Error (List (Leaf Str'))
  | [] => .ok []
  | l :: ls => do
      .ok ((← leafMapVar f l) :: (← leavesMapVar f ls))

/-- The `Leaf::map` from `backpat/src/compile.rs`. -/
def leafMapVar (f : Var → Except Error Str') :
    Leaf Var → Except Error (Leaf Str')
  | .payload v => do .ok (.payload (← f v))
  | .group g => do .ok (.group (← groupMapVar f g))
  | .rep pre times suffix => do
      .ok (.rep (← leafMapVar f pre) times (← branchMapVar f suffix))
  | .raw s => .ok (.raw s)
  | .cls c => .ok (.cls c)
  | .anchorStart => .ok .anchorStart
  | .anchorEnd => .ok .anchorEnd
end

/-- The `Ast::map` from `backpat/src/compile.rs`. -/
def astMapVar (f : Var → Except Error Str') (a : Ast Var) :
    Except Error (Ast Str') := do
  .ok { root := ← groupMapVar f a.root, ignoreCase := a.ignoreCase }

/-! ### Opcodes and interpreter state (`src/eval.rs`)

The `Op` enum is reconstructed from the arms of `Interpreter::step`; the
`opcode.rs` in the tree is an earlier generation lacking `MARK`, `DUP`,
`GROUP`, `PAT`, `STR` and `ASSERT`, but its `Program::call` arity check is
current and is used by `fncall`. -/

/-- The `enum Binop` as dispatched by `Op::BINOP` in `src/eval.rs`. -/
inductive Binop where
  | ADD
  | SUB
  | DIV
  | MUL
  | IDX
  | EQ
  | NE
  | MATCH

/-- The `enum Op` as dispatched by `Interpreter::step` in `src/eval.rs`. -/
inductive Op where
  | RET
  | DUP
  | DROP
  | NIL
  | LOAD (src : Nat)
  | STORE (dst : Nat)
  | GROUP (num : Nat)
  | GLOBALS
  | PUSHI (int : Int)
  | PUSHS (string : String)
  | PUSHN (name : String)
  | PAT (pat : Ast Var)
  | NOT
  | BINOP (op : Binop)
  | INS
  | LIST (len : Nat)
  | STR (len : Nat)
  | REC
  | JUMP (dst : Nat)
  | JNZ (dst : Nat)
  | ASSERT (expr : String)
  | MARK (len : Nat)
  | CALL (name : String) (argc : Nat)

/-- The `enum Func` from the generation of `opcode.rs` that `src/eval.rs`
executes: a host callable or a sealed opcode body. -/
inductive Func where
  | native (f : List Value → Except Error Value)
  | interpreted (code : List Op)

/-- The `struct Frame` from `src/eval.rs`; `groups` (a `BTreeMap<u8, Str>`) is
an association list consumed through `lookup`. -/
structure Frame where
  code : List Op
  mark : Nat
  locals : List Value
  groups : List (Nat × String)
  pc : Nat

/-- The `struct Interpreter` from `src/eval.rs`.  The function table stands in
for `main: Module` (interned strings elided; `step` never interns), and
`globals` is the record contents. -/
structure Interp where
  frame : Frame
  saved : List Frame
  globals : List (String × Value)
  functions : List (String × (Argc × Func))

/-- The `Interpreter::pop` (without the `Extract` step): `Vec::pop`, then the
`locals.len() < mark` check.  The operand stack is the tail of `locals`,
so the popped value is the last element. -/
def popValue (f : Frame) : Except Error (Value × Frame) :=
  match f.locals.getLast? with
  | none => .error .stackUnderflow
  | some v =>
      let locals' := f.locals.dropLast
      if locals'.length < f.mark then .error .poppedLocalVar
      else .ok (v, { f with locals := locals' })

/-- The `Interpreter::push`. -/
def pushValue (f : Frame) (v : Value) : Frame :=
  { f with locals := f.locals ++ [v] }

/-- The `Interpreter::read` (without the `Extract` step); the unguarded slot
access `locals[index]` panics when `index < mark` but the slot is gone. -/
def readValue (f : Frame) (index : Nat) : Except Error Value :=
  if index ≥ f.mark then .error (.localVarOutOfBounds index)
  else
    match f.locals.get? index with
    | some v => .ok v
    | none => .error .panicked

/-- The `Interpreter::write`; like `read`, the store itself is unguarded. -/
def writeValue (f : Frame) (item : Value) (index : Nat) : Except Error Frame :=
  if index ≥ f.mark then .error (.localVarOutOfBounds index)
  else if index < f.locals.length then
    .ok { f with locals := f.locals.set index item }
  else .error .panicked

/-- The `Interpreter::capture`: `locals.len().checked_sub(len)` guards only the
total length, then `drain(start ..)` removes the last `len` entries (in
stack order) regardless of `mark`. -/
def captureVals (f : Frame) (len : Nat) : Except Error (List Value × Frame) :=
  if len > f.locals.length then .error .listTooLong
  else
    let start := f.locals.length - len
    .ok (f.locals.drop start, { f with locals := f.locals.take start })

/-- The arity-class test of the guards in `Program::call`:
`Exactly(argc) if argc == argv.len()`, `AtLeast(argc) if argc <= argv.len()`. -/
def Argc.admits : Argc → Nat → Prop
  | .exactly argc, found => argc = found
  | .atLeast argc, found => argc ≤ found

instance : ∀ (a : Argc) (n : Nat), Decidable (a.admits n)
  | .exactly _, _ => by unfold Argc.admits; infer_instance
  | .atLeast _, _ => by unfold Argc.admits; infer_instance

/-- The `Program::call` from `src/opcode.rs` (lines 74–91): look the function
up, admit the call when the argument count satisfies the arity class, and
reject it with `WrongArgc` otherwise. -/
def Program.call (functions : List (String × (Argc × Func))) (name : String)
    (argv : List Value) : Except Error Func :=
  match functions.lookup name with
  | none => .error .noSuchLabel
  | some (wanted, func) =>
      match wanted with
      | .exactly argc =>
          if argc = argv.length then .ok func
          else .error (.wrongArgc name wanted argv.length)
      | .atLeast argc =>
          if argc ≤ argv.length then .ok func
          else .error (.wrongArgc name wanted argv.length)

/-- The `Interpreter::fncall`: native callees run immediately and push their
result; interpreted callees become the current frame, with the arguments
as initial locals and `mark = argc`, the caller saved underneath. -/
def fncall (s : Interp) (name : String) (argv : List Value) :
    Except Error Interp := do
  match ← Program.call s.functions name argv with
  | .native call => do
      let rv ← call argv
      .ok { s with frame := pushValue s.frame rv }
  | .interpreted code =>
      .ok { s with
        frame := { code, mark := argv.length, locals := argv, groups := [], pc := 0 },
        saved := s.frame :: s.saved }

/-- The `BTreeMap::insert` on a frame's groups: overwrite any existing entry. -/
def groupsInsert (gs : List (Nat × String)) (k : Nat) (v : String) :
    List (Nat × String) :=
  (k, v) :: gs.filter (fun e => e.1 ≠ k)

/-- The capture loop of `Interpreter::match_pattern`: record each capture's
substring under its group number. -/
def groupsOfCaptures (text : List Char) : Captures → List (Nat × String) →
    List (Nat × String)
  | [], gs => gs
  | (id, start, stop) :: rest, gs =>
      groupsOfCaptures text rest
        (groupsInsert gs id (String.mk ((text.drop start).take (stop - start))))

/-- The `Interpreter::match_pattern`: extract the pattern (rhs) and subject
string (lhs), run the matcher, clear the groups, then on success populate
them from the captures; the pushed result is the success boolean. -/
def matchPattern (pat text : Value) : Except Error (Value × (List (Nat × String))) := do
  let pat ← extractPat pat
  let text ← extractStr text
  match pat.matches text.toList with
  | some captures => .ok (boolToValue true, groupsOfCaptures text.toList captures [])
  | none => .ok (boolToValue false, [])

/-- The `Interpreter::compile_pattern`: substitute each variable payload with
the display string of its current value — locals through `read`, globals
through the globals record (missing global ⇒ error).  The source memoizes
repeated variables in local `HashMap`s; the memo is observationally
equivalent to direct lookup and is elided. -/
def compilePattern (s : Interp) (p : Ast Var) : Except Error (Ast Str') :=
  astMapVar (fun v =>
    match v with
    | .localVar slot => do
        let val ← readValue s.frame slot
        .ok val.display.toList
    | .globalVar name =>
        match s.globals.lookup name with
        | some val => .ok val.display.toList
        | none => .error .noSuchGlobal) p

/-- The `Program::fetch` (`src/opcode.rs`): `code.get(pc)` or
`IndexOutOfBounds`. -/
def fetchOp (code : List Op) (pc : Nat) : Except Error Op :=
  match code.get? pc with
  | some op => .ok op
  | none => .error .indexOutOfBounds

/-- The `Interpreter::step` from `src/eval.rs`: fetch the opcode at `pc`,
advance `pc`, dispatch.  Heap mutation through shared handles (`INS`,
`GLOBALS`) is not tracked by this value-semantics embedding; no claim
below depends on it. -/
def step (s : Interp) : Except Error Interp := do
  let op ← fetchOp s.frame.code s.frame.pc
  let s := { s with frame := { s.frame with pc := s.frame.pc + 1 } }
  match op with
  | .RET =>
      match s.saved with
      | [] => .error .stackUnderflow
      | caller :: rest => do
          let (rv, _) ← popValue s.frame
          .ok { s with frame := pushValue caller rv, saved := rest }
  | .DUP => do
      let (v, f) ← popValue s.frame
      .ok { s with frame := pushValue (pushValue f v) v }
  | .DROP => do
      let (_, f) ← popValue s.frame
      .ok { s with frame := f }
  | .NIL =>
      .ok { s with frame := pushValue s.frame .nil }
  | .LOAD src => do
      let v ← readValue s.frame src
      .ok { s with frame := pushValue s.frame v }
  | .STORE dst => do
      let (v, f) ← popValue s.frame
      let f ← writeValue f v dst
      .ok { s with frame := f }
  | .GROUP num =>
      match s.frame.groups.lookup num with
      | some text => .ok { s with frame := pushValue s.frame (.str text) }
      | none => .error (.noSuchGroup num)
  | .GLOBALS =>
      .ok { s with frame := pushValue s.frame (.record s.globals) }
  | .PUSHI int =>
      .ok { s with frame := pushValue s.frame (.int int) }
  | .PUSHS string =>
      .ok { s with frame := pushValue s.frame (.str string) }
  | .PUSHN name =>
      .ok { s with frame := pushValue s.frame (.ident name) }
  | .PAT pat => do
      let compiled ← compilePattern s pat
      .ok { s with frame := pushValue s.frame (.pat compiled) }
  | .NOT => do
      let (v, f) ← popValue s.frame
      .ok { s with frame := pushValue f (boolToValue (!extractBool v)) }
  | .BINOP op => do
      let (rhs, f1) ← popValue s.frame
      let (lhs, f2) ← popValue f1
      match op with
      | .ADD => do
          let r ← lhs.add rhs
          .ok { s with frame := pushValue f2 r }
      | .SUB => do
          let r ← lhs.sub rhs
          .ok { s with frame := pushValue f2 r }
      | .DIV => do
          let r ← lhs.div rhs
          .ok { s with frame := pushValue f2 r }
      | .MUL => do
          let r ← lhs.mul rhs
          .ok { s with frame := pushValue f2 r }
      | .IDX => do
          let r ← lhs.index rhs
          .ok { s with frame := pushValue f2 r }
      | .EQ =>
          .ok { s with frame := pushValue f2 (boolToValue (lhs.beq rhs)) }
      | .NE =>
          .ok { s with frame := pushValue f2 (boolToValue (!(lhs.beq rhs))) }
      | .MATCH => do
          let (r, groups) ← matchPattern rhs lhs
          .ok { s with frame := pushValue { f2 with groups } r }
  | .INS => do
      let (lhs, f1) ← popValue s.frame
      let (idx, f2) ← popValue f1
      let (rhs, f3) ← popValue f2
      match ← lhs.insert idx rhs with
      | some _ => .ok { s with frame := f3 }
      | none => .error .panicked
  | .LIST len => do
      let (items, f) ← captureVals s.frame len
      .ok { s with frame := pushValue f (.list items) }
  | .STR len => do
      let (items, f) ← captureVals s.frame len
      .ok { s with frame := pushValue f (.str (String.join (items.map Value.display))) }
  | .REC =>
      .ok { s with frame := pushValue s.frame (.record []) }
  | .JUMP dst =>
      .ok { s with frame := { s.frame with pc := dst } }
  | .JNZ dst => do
      let (v, f) ← popValue s.frame
      if extractBool v then
        .ok { s with frame := { f with pc := dst } }
      else
        .ok { s with frame := f }
  | .ASSERT expr => do
      let (v, f) ← popValue s.frame
      if extractBool v then .ok { s with frame := f }
      else .error (.assertFailed expr)
  | .MARK len =>
      if len > s.frame.locals.length then .error .markTooHigh
      else
        .ok { s with frame := { s.frame with mark := len, locals := s.frame.locals.take len } }
  | .CALL name argc => do
      let (argv, f) ← captureVals s.frame argc
      fncall { s with frame := f } name argv

/-- Run `step` exactly `n` times (the `while … { this.step()?; }` driver
loops of `Module::start` and `Interpreter::exec` iterate `step`). -/
def stepN : Nat → Interp → Except Error Interp
  | 0, s => .ok s
  | n + 1, s => do stepN n (← step s)

/-- Reachability by stepping. -/
def Reaches (s t : Interp) : Prop :=
  ∃ n, stepN n s = .ok t

/-! ### Short-circuit code shapes (`src/build.rs`, `Expr::And` / `Expr::Or`)

`tr_expr` emits, after the lhs code: `DUP; [NOT;] JNZ after; DROP`, then
the rhs code, then places the label `after`; `Assembler::build` resolves
`after` to the opcode index one past the rhs code. -/

/-- The code emitted for `Expr::Or { lhs, rhs }`. -/
def emitOr (lhsCode rhsCode : List Op) : List Op :=
  lhsCode ++ [.DUP, .JNZ (lhsCode.length + 3 + rhsCode.length), .DROP] ++ rhsCode

/-- The code emitted for `Expr::And { lhs, rhs }`. -/
def emitAnd (lhsCode rhsCode : List Op) : List Op :=
  lhsCode ++ [.DUP, .NOT, .JNZ (lhsCode.length + 4 + rhsCode.length), .DROP] ++ rhsCode

/-- A fresh interpreter configuration about to run `code` (the frame shape
`Module::start` gives the `BEGIN` body: empty locals, `mark = 0`,
`pc = 0`). -/
def initState (code : List Op) : Interp :=
  { frame := { code, mark := 0, locals := [], groups := [], pc := 0 },
    saved := [], globals := [], functions := [] }

/-- Interpreter configuration with the given frame fields and surroundings
(used to state execution facts about emitted code shapes). -/
def mkInterp (code : List Op) (mk : Nat) (locals : List Value)
    (g : List (Nat × String)) (pc : Nat) (sv : List Frame)
    (gl : List (String × Value)) (fns : List (String × (Argc × Func))) :
    Interp :=
  { frame := { code := code, mark := mk, locals := locals, groups := g, pc := pc },
    saved := sv, globals := gl, functions := fns }

end Canary

namespace Backpat

/-- The state discipline of the matcher: `haystack` and `ignore_case` are
never reassigned below `check_root`, and the captures present on entry
remain as a prefix (pushes append; `recall` truncates only back to a
checkpoint taken no earlier than entry). -/
def Preserves (m m' : Matcher) : Prop :=
  m'.haystack = m.haystack ∧ m'.ignoreCase = m.ignoreCase ∧
    m.captures <+: m'.captures

/-- Stronger form for the primitive probes, which never touch captures. -/
def PreservesC (m m' : Matcher) : Prop :=
  m'.haystack = m.haystack ∧ m'.ignoreCase = m.ignoreCase ∧
    m'.captures = m.captures

/-- Shorthand used below: the group numbers in a captures list are
pairwise distinct. -/
def NodupNums (c : Captures) : Prop :=
  (c.map (fun e => e.1)).Nodup

end Backpat

namespace Backpat

theorem preservesC_preserves {m m' : Matcher} (h : PreservesC m m') : Preserves m m' :=
  ⟨h.1, h.2.1, h.2.2 ▸ List.prefix_refl _⟩

theorem preserves_refl (m : Matcher) : Preserves m m :=
  ⟨rfl, rfl, List.prefix_refl _⟩

theorem preserves_trans {m1 m2 m3 : Matcher} (h1 : Preserves m1 m2)
    (h2 : Preserves m2 m3) : Preserves m1 m3 :=
  ⟨h2.1.trans h1.1, h2.2.1.trans h1.2.1, h1.2.2.trans h2.2.2⟩

theorem getChar_preservesC (m : Matcher) : PreservesC m m.getChar.2 := by
  unfold Matcher.getChar
  cases m.haystack.drop m.right <;> exact ⟨rfl, rfl, rfl⟩

theorem checkChar_preservesC (m : Matcher) (c : Char) :
    PreservesC m (m.checkChar c).2 := by
  unfold Matcher.checkChar
  have := getChar_preservesC m
  rcases h : m.getChar with ⟨o, m'⟩
  rw [h] at this
  cases o <;> exact this

theorem checkStrCi_preservesC (s : List Char) :
    ∀ m : Matcher, PreservesC m (m.checkStrCi s).2 := by
  induction s with
  | nil => intro m; exact ⟨rfl, rfl, rfl⟩
  | cons c cs ih =>
      intro m
      have h1 := checkChar_preservesC m c
      unfold Matcher.checkStrCi
      rcases h : m.checkChar c with ⟨ok, m'⟩
      rw [h] at h1
      cases ok
      · exact h1
      · exact ⟨(ih m').1.trans h1.1, (ih m').2.1.trans h1.2.1, (ih m').2.2.trans h1.2.2⟩

theorem checkStr_preservesC (m : Matcher) (s : List Char) :
    PreservesC m (m.checkStr s).2 := by
  unfold Matcher.checkStr
  split
  · exact checkStrCi_preservesC s m
  · split <;> exact ⟨rfl, rfl, rfl⟩

theorem checkClass_preservesC (m : Matcher) (c : Class) :
    PreservesC m (m.checkClass c).2 := by
  unfold Matcher.checkClass
  have := getChar_preservesC m
  rcases h : m.getChar with ⟨o, m'⟩
  rw [h] at this
  cases o
  · exact this
  · cases c <;> exact this

theorem capture_preserves (m : Matcher) (num : Nat) (here : Checkpoint) :
    Preserves m (m.capture num here) := by
  unfold Matcher.capture
  split
  · exact preserves_refl m
  · exact ⟨rfl, rfl, List.prefix_append _ _⟩

end Backpat

namespace Backpat

theorem take_append_self (c0 t : List α) : (c0 ++ t).take c0.length = c0 := by
  simp [List.take_append_eq_append_take]

theorem prefix_take_of_le {c0 l : List α} (h : c0 <+: l) {k : Nat}
    (hk : c0.length ≤ k) : c0 <+: l.take k := by
  obtain ⟨t, rfl⟩ := h
  rw [List.take_append_eq_append_take, List.take_of_length_le hk]
  exact List.prefix_append _ _

theorem take_eq_of_prefix_le {c0 l : List α} (h : c0 <+: l) {k : Nat}
    (hk : k ≤ c0.length) : l.take k = c0.take k := by
  obtain ⟨t, rfl⟩ := h
  rw [List.take_append_eq_append_take, Nat.sub_eq_zero_of_le hk]
  simp

theorem repeatMin_preserves {check : Matcher → Bool × Matcher}
    (H : ∀ mm, Preserves mm (check mm).2) :
    ∀ (n : Nat) (m : Matcher), Preserves m (repeatMin check n m).2 := by
  intro n
  induction n with
  | zero => intro m; exact preserves_refl m
  | succ k ih =>
      intro m
      have h1 := H m
      unfold repeatMin
      rcases h : check m with ⟨ok, m'⟩
      rw [h] at h1
      cases ok
      · exact h1
      · exact preserves_trans h1 (ih m')

theorem repeatGrow_spec {check : Matcher → Bool × Matcher}
    (H : ∀ mm, Preserves mm (check mm).2) :
    ∀ (n : Nat) (stack : List Checkpoint) (m : Matcher),
      Preserves m (repeatGrow check n stack m).2 ∧
      ∀ cp ∈ (repeatGrow check n stack m).1,
        cp ∈ stack ∨ m.captures.length ≤ cp.captures := by
  intro n
  induction n with
  | zero =>
      intro stack m
      exact ⟨preserves_refl m, fun cp hcp => Or.inl hcp⟩
  | succ k ih =>
      intro stack m
      have h1 := H m
      unfold repeatGrow
      rcases h : check m with ⟨ok, m'⟩
      rw [h] at h1
      cases ok
      · refine ⟨h1, fun cp hcp => ?_⟩
        rcases List.mem_cons.mp hcp with hcp | hcp
        · subst hcp
          exact Or.inr (le_of_eq rfl)
        · exact Or.inl hcp
      · have h2 := ih (m.mark :: stack) m'
        refine ⟨preserves_trans h1 h2.1, fun cp hcp => ?_⟩
        rcases h2.2 cp hcp with hin | hle
        · rcases List.mem_cons.mp hin with hin | hin
          · subst hin; exact Or.inr (le_of_eq rfl)
          · exact Or.inl hin
        · exact Or.inr (le_trans (List.IsPrefix.length_le h1.2.2) hle)

theorem repeatGive_preserves {checkSuffix : Matcher → Bool × Matcher}
    (H : ∀ mm, Preserves mm (checkSuffix mm).2) :
    ∀ (stack : List Checkpoint) (m : Matcher) (c0 : Captures),
      c0 <+: m.captures →
      (∀ cp ∈ stack, c0.length ≤ cp.captures) →
      (repeatGive checkSuffix stack m).2.haystack = m.haystack ∧
      (repeatGive checkSuffix stack m).2.ignoreCase = m.ignoreCase ∧
      c0 <+: (repeatGive checkSuffix stack m).2.captures := by
  intro stack
  induction stack with
  | nil =>
      intro m c0 hpre _
      have h := H m
      exact ⟨h.1, h.2.1, hpre.trans h.2.2⟩
  | cons here rest ih =>
      intro m c0 hpre hstack
      have h1 := H m
      unfold repeatGive
      rcases h : checkSuffix m with ⟨ok, m'⟩
      rw [h] at h1
      cases ok
      · -- failure: recall to `here`, continue with the rest of the stack
        have hrec : c0 <+: (m'.recall here).captures := by
          unfold Matcher.recall
          exact prefix_take_of_le (hpre.trans h1.2.2)
            (hstack here (List.mem_cons_self _ _))
        have h2 := ih (m'.recall here) c0 hrec
          (fun cp hcp => hstack cp (List.mem_cons_of_mem _ hcp))
        refine ⟨h2.1.trans h1.1, h2.2.1.trans h1.2.1, h2.2.2⟩
      · exact ⟨h1.1, h1.2.1, hpre.trans h1.2.2⟩

end Backpat

namespace Backpat

mutual
theorem checkGroup_preserves (g : Group Str') (m : Matcher) :
    Preserves m (checkGroup g m).2 := by
  match g with
  | .mk number branches =>
    have h := goBranches_preserves number m.mark branches m (le_of_eq rfl)
    simp only [checkGroup]
    refine ⟨h.1, h.2.1, ?_⟩
    have := h.2.2
    rwa [show (Matcher.mark m).captures = m.captures.length from rfl,
      List.take_length] at this
termination_by sizeOf g

theorem goBranches_preserves (number : Nat) (here : Checkpoint)
    (bs : List (Branch Str')) (m : Matcher)
    (h : here.captures ≤ m.captures.length) :
    (goBranches number here bs m).2.haystack = m.haystack ∧
    (goBranches number here bs m).2.ignoreCase = m.ignoreCase ∧
    m.captures.take here.captures <+: (goBranches number here bs m).2.captures := by
  match bs with
  | [] =>
      exact ⟨rfl, rfl, List.take_prefix _ _⟩
  | b :: rest =>
      have h1 := checkBranch_preserves b m
      simp only [goBranches]
      rcases hcb : checkBranch b m with ⟨ok, m1⟩
      rw [hcb] at h1
      cases ok
      · -- branch failed: recall and try the remaining branches
        have hcaps : (m1.recall here).captures = m.captures.take here.captures := by
          unfold Matcher.recall
          exact take_eq_of_prefix_le h1.2.2 h
        have hlen : here.captures ≤ (m1.recall here).captures.length := by
          rw [hcaps, List.length_take]
          exact le_min (le_refl _) h
        have h2 := goBranches_preserves number here rest (m1.recall here) hlen
        have hre : (m1.recall here).captures.take here.captures =
            m.captures.take here.captures := by
          rw [hcaps, List.take_take, min_self]
        refine ⟨?_, ?_, ?_⟩
        · rw [h2.1]; exact h1.1
        · rw [h2.2.1]; exact h1.2.1
        · have := h2.2.2
          rwa [hre] at this
      · -- branch succeeded: record the capture
        have h3 := capture_preserves m1 number here
        refine ⟨h3.1.trans h1.1, h3.2.1.trans h1.2.1, ?_⟩
        exact ((List.take_prefix _ _).trans h1.2.2).trans h3.2.2
termination_by sizeOf bs

theorem checkBranch_preserves (b : Branch Str') (m : Matcher) :
    Preserves m (checkBranch b m).2 := by
  match b with
  | .mk leaves =>
      simp only [checkBranch]
      exact goLeaves_preserves leaves m
termination_by sizeOf b

theorem goLeaves_preserves (ls : List (Leaf Str')) (m : Matcher) :
    Preserves m (goLeaves ls m).2 := by
  match ls with
  | [] => exact preserves_refl m
  | l :: rest =>
      have h1 := checkLeaf_preserves l m
      simp only [goLeaves]
      rcases hcl : checkLeaf l m with ⟨ok, m1⟩
      rw [hcl] at h1
      cases ok
      · exact h1
      · exact preserves_trans h1 (goLeaves_preserves rest m1)
termination_by sizeOf ls

theorem checkLeaf_preserves (l : Leaf Str') (m : Matcher) :
    Preserves m (checkLeaf l m).2 := by
  match l with
  | .anchorStart => exact preserves_refl m
  | .anchorEnd => exact preserves_refl m
  | .group g => exact checkGroup_preserves g m
  | .raw s => exact preservesC_preserves (checkStr_preservesC m s)
  | .payload s => exact preservesC_preserves (checkStr_preservesC m s)
  | .cls c => exact preservesC_preserves (checkClass_preservesC m c)
  | .rep pre times suffix =>
      have Hpre : ∀ mm, Preserves mm (checkLeaf pre mm).2 :=
        fun mm => checkLeaf_preserves pre mm
      have Hsuf : ∀ mm, Preserves mm (checkBranch suffix mm).2 :=
        fun mm => checkBranch_preserves suffix mm
      simp only [checkLeaf]
      rcases hb : repBounds times with ⟨mn, mx⟩
      dsimp only
      have h1 := repeatMin_preserves Hpre mn m
      rcases hm : repeatMin (fun mm => checkLeaf pre mm) mn m with ⟨ok, m1⟩
      rw [hm] at h1
      cases ok
      · exact h1
      · dsimp only
        have h2 := repeatGrow_spec Hpre
          ((mx.getD (m.haystack.drop m.right).length) - mn) [] m1
        rcases hg : repeatGrow (fun mm => checkLeaf pre mm)
            ((mx.getD (m.haystack.drop m.right).length) - mn) [] m1 with ⟨stack, m2⟩
        rw [hg] at h2
        have h3 := repeatGive_preserves Hsuf stack m2 m.captures
          (h1.2.2.trans h2.1.2.2)
          (fun cp hcp => by
            rcases h2.2 cp hcp with hin | hle
            · exact absurd hin (List.not_mem_nil cp)
            · exact le_trans (List.IsPrefix.length_le h1.2.2) hle)
        exact ⟨h3.1.trans (h2.1.1.trans h1.1),
          h3.2.1.trans (h2.1.2.1.trans h1.2.1), h3.2.2⟩
termination_by sizeOf l
end

end Backpat

namespace Backpat

theorem matcher_eq_of_fields {a b : Matcher} (h1 : a.haystack = b.haystack)
    (h2 : a.captures = b.captures) (h3 : a.ignoreCase = b.ignoreCase)
    (h4 : a.right = b.right) : a = b := by
  cases a; cases b; simp_all

/-- Failure of the branch loop hands back exactly the state at the
checkpoint: each failed branch is followed by `recall`, which, by the
prefix discipline, reconstructs the entry state exactly. -/
theorem goBranches_restore (number : Nat) (here : Checkpoint)
    (bs : List (Branch Str')) :
    ∀ (m : Matcher), m.right = here.right → m.captures.length = here.captures →
      ∀ out, goBranches number here bs m = (false, out) → out = m := by
  induction bs with
  | nil =>
      intro m _ _ out h
      simp only [goBranches] at h
      injection h with _ h2
      exact h2.symm
  | cons b rest ih =>
      intro m hr hlen out h
      have h1 := checkBranch_preserves b m
      simp only [goBranches] at h
      rcases hcb : checkBranch b m with ⟨ok, m1⟩
      rw [hcb] at h h1
      dsimp only at h h1
      cases ok
      · -- failed branch: the recalled state is exactly `m`
        have hrec : m1.recall here = m := by
          apply matcher_eq_of_fields
          · exact h1.1
          · show m1.captures.take here.captures = m.captures
            rw [← hlen, take_eq_of_prefix_le h1.2.2 (le_refl _), List.take_length]
          · exact h1.2.1
          · exact hr.symm
        dsimp only at h
        rw [hrec] at h
        exact ih m hr hlen out h
      · dsimp only at h
        simp at h

/-- The `Matcher::check_group` restores its entry state exactly when it
fails. -/
theorem checkGroup_false_restore (g : Group Str') (m out : Matcher)
    (h : checkGroup g m = (false, out)) : out = m := by
  match g with
  | .mk number branches =>
      simp only [checkGroup] at h
      exact goBranches_restore number m.mark branches m rfl rfl out h

end Backpat

namespace Backpat

theorem nodupNums_take {c : Captures} (h : NodupNums c) (k : Nat) :
    NodupNums (c.take k) := by
  unfold NodupNums at h ⊢
  rw [List.map_take]
  exact h.sublist (List.take_sublist _ _)

theorem capture_nodup {m : Matcher} (h : NodupNums m.captures)
    (num : Nat) (here : Checkpoint) :
    NodupNums (m.capture num here).captures := by
  unfold Matcher.capture
  split
  · exact h
  · next hany =>
      unfold NodupNums at h ⊢
      rw [List.map_append]
      simp only [List.map_cons, List.map_nil]
      rw [List.nodup_append]
      refine ⟨h, List.nodup_singleton _, fun x hx => ?_⟩
      rcases List.mem_map.mp hx with ⟨e, he, rfl⟩
      have := (List.any_eq_false).mp (Bool.not_eq_true _ ▸ hany) e he
      simp only [beq_iff_eq] at this
      simp [this]

theorem recall_nodup {m : Matcher} (h : NodupNums m.captures)
    (here : Checkpoint) : NodupNums (m.recall here).captures := by
  unfold Matcher.recall
  exact nodupNums_take h _

theorem repeatMin_nodup {check : Matcher → Bool × Matcher}
    (H : ∀ mm, NodupNums mm.captures → NodupNums (check mm).2.captures) :
    ∀ (n : Nat) (m : Matcher), NodupNums m.captures →
      NodupNums (repeatMin check n m).2.captures := by
  intro n
  induction n with
  | zero => intro m hm; exact hm
  | succ k ih =>
      intro m hm
      have h1 := H m hm
      unfold repeatMin
      rcases h : check m with ⟨ok, m'⟩
      rw [h] at h1
      cases ok
      · exact h1
      · exact ih m' h1

theorem repeatGrow_nodup {check : Matcher → Bool × Matcher}
    (H : ∀ mm, NodupNums mm.captures → NodupNums (check mm).2.captures) :
    ∀ (n : Nat) (stack : List Checkpoint) (m : Matcher), NodupNums m.captures →
      NodupNums (repeatGrow check n stack m).2.captures := by
  intro n
  induction n with
  | zero => intro stack m hm; exact hm
  | succ k ih =>
      intro stack m hm
      have h1 := H m hm
      unfold repeatGrow
      rcases h : check m with ⟨ok, m'⟩
      rw [h] at h1
      cases ok
      · exact h1
      · exact ih _ m' h1

theorem repeatGive_nodup {checkSuffix : Matcher → Bool × Matcher}
    (H : ∀ mm, NodupNums mm.captures → NodupNums (checkSuffix mm).2.captures) :
    ∀ (stack : List Checkpoint) (m : Matcher), NodupNums m.captures →
      NodupNums (repeatGive checkSuffix stack m).2.captures := by
  intro stack
  induction stack with
  | nil => intro m hm; exact H m hm
  | cons here rest ih =>
      intro m hm
      have h1 := H m hm
      unfold repeatGive
      rcases h : checkSuffix m with ⟨ok, m'⟩
      rw [h] at h1
      cases ok
      · exact ih (m'.recall here) (recall_nodup h1 here)
      · exact h1

mutual
theorem checkGroup_nodup (g : Group Str') (m : Matcher)
    (hm : NodupNums m.captures) : NodupNums (checkGroup g m).2.captures := by
  match g with
  | .mk number branches =>
      simp only [checkGroup]
      exact goBranches_nodup number m.mark branches m hm
termination_by sizeOf g

theorem goBranches_nodup (number : Nat) (here : Checkpoint)
    (bs : List (Branch Str')) (m : Matcher) (hm : NodupNums m.captures) :
    NodupNums (goBranches number here bs m).2.captures := by
  match bs with
  | [] => exact hm
  | b :: rest =>
      have h1 := checkBranch_nodup b m hm
      simp only [goBranches]
      rcases hcb : checkBranch b m with ⟨ok, m1⟩
      rw [hcb] at h1
      cases ok
      · exact goBranches_nodup number here rest (m1.recall here)
          (recall_nodup h1 here)
      · exact capture_nodup h1 number here
termination_by sizeOf bs

theorem checkBranch_nodup (b : Branch Str') (m : Matcher)
    (hm : NodupNums m.captures) : NodupNums (checkBranch b m).2.captures := by
  match b with
  | .mk leaves =>
      simp only [checkBranch]
      exact goLeaves_nodup leaves m hm
termination_by sizeOf b

theorem goLeaves_nodup (ls : List (Leaf Str')) (m : Matcher)
    (hm : NodupNums m.captures) : NodupNums (goLeaves ls m).2.captures := by
  match ls with
  | [] => exact hm
  | l :: rest =>
      have h1 := checkLeaf_nodup l m hm
      simp only [goLeaves]
      rcases hcl : checkLeaf l m with ⟨ok, m1⟩
      rw [hcl] at h1
      cases ok
      · exact h1
      · exact goLeaves_nodup rest m1 h1
termination_by sizeOf ls

theorem checkLeaf_nodup (l : Leaf Str') (m : Matcher)
    (hm : NodupNums m.captures) : NodupNums (checkLeaf l m).2.captures := by
  match l with
  | .anchorStart => exact hm
  | .anchorEnd => exact hm
  | .group g => exact checkGroup_nodup g m hm
  | .raw s => exact (checkStr_preservesC m s).2.2.symm ▸ hm
  | .payload s => exact (checkStr_preservesC m s).2.2.symm ▸ hm
  | .cls c => exact (checkClass_preservesC m c).2.2.symm ▸ hm
  | .rep pre times suffix =>
      have Hpre : ∀ mm, NodupNums mm.captures →
          NodupNums (checkLeaf pre mm).2.captures :=
        fun mm hmm => checkLeaf_nodup pre mm hmm
      have Hsuf : ∀ mm, NodupNums mm.captures →
          NodupNums (checkBranch suffix mm).2.captures :=
        fun mm hmm => checkBranch_nodup suffix mm hmm
      simp only [checkLeaf]
      rcases hb : repBounds times with ⟨mn, mx⟩
      dsimp only
      have h1 := repeatMin_nodup Hpre mn m hm
      rcases hmin : repeatMin (fun mm => checkLeaf pre mm) mn m with ⟨ok, m1⟩
      rw [hmin] at h1
      cases ok
      · exact h1
      · dsimp only
        have h2 := repeatGrow_nodup Hpre
          ((mx.getD (m.haystack.drop m.right).length) - mn) [] m1 h1
        rcases hg : repeatGrow (fun mm => checkLeaf pre mm)
            ((mx.getD (m.haystack.drop m.right).length) - mn) [] m1 with ⟨stack, m2⟩
        rw [hg] at h2
        exact repeatGive_nodup Hsuf stack m2 h2
termination_by sizeOf l
end

end Backpat

namespace Backpat

theorem capture_mem {m : Matcher} {num : Nat} {here : Checkpoint} :
    ∀ e ∈ (m.capture num here).captures, e ∈ m.captures ∨ e.1 = num := by
  unfold Matcher.capture
  split
  · exact fun e he => Or.inl he
  · intro e he
    rcases List.mem_append.mp he with he | he
    · exact Or.inl he
    · rcases List.mem_singleton.mp he with rfl
      exact Or.inr rfl

theorem recall_mem {m : Matcher} {here : Checkpoint} :
    ∀ e ∈ (m.recall here).captures, e ∈ m.captures := by
  unfold Matcher.recall
  exact fun e he => (List.take_sublist _ _).mem he

theorem repeatMin_mem {check : Matcher → Bool × Matcher} {Q : Nat → Prop}
    (H : ∀ mm e, e ∈ (check mm).2.captures → e ∈ mm.captures ∨ Q e.1) :
    ∀ (n : Nat) (m : Matcher) (e), e ∈ (repeatMin check n m).2.captures →
      e ∈ m.captures ∨ Q e.1 := by
  intro n
  induction n with
  | zero => exact fun m e he => Or.inl he
  | succ k ih =>
      intro m e
      unfold repeatMin
      rcases h : check m with ⟨ok, m'⟩
      have h1 := fun e he => H m e (h ▸ he : e ∈ (check m).2.captures)
      cases ok
      · exact fun he => h1 e he
      · intro he
        rcases ih m' e he with he' | hq
        · exact h1 e he'
        · exact Or.inr hq

theorem repeatGrow_mem {check : Matcher → Bool × Matcher} {Q : Nat → Prop}
    (H : ∀ mm e, e ∈ (check mm).2.captures → e ∈ mm.captures ∨ Q e.1) :
    ∀ (n : Nat) (stack : List Checkpoint) (m : Matcher) (e),
      e ∈ (repeatGrow check n stack m).2.captures → e ∈ m.captures ∨ Q e.1 := by
  intro n
  induction n with
  | zero => exact fun stack m e he => Or.inl he
  | succ k ih =>
      intro stack m e
      unfold repeatGrow
      rcases h : check m with ⟨ok, m'⟩
      have h1 := fun e he => H m e (h ▸ he : e ∈ (check m).2.captures)
      cases ok
      · exact fun he => h1 e he
      · intro he
        rcases ih _ m' e he with he' | hq
        · exact h1 e he'
        · exact Or.inr hq

theorem repeatGive_mem {checkSuffix : Matcher → Bool × Matcher} {Q : Nat → Prop}
    (H : ∀ mm e, e ∈ (checkSuffix mm).2.captures → e ∈ mm.captures ∨ Q e.1) :
    ∀ (stack : List Checkpoint) (m : Matcher) (e),
      e ∈ (repeatGive checkSuffix stack m).2.captures →
      e ∈ m.captures ∨ Q e.1 := by
  intro stack
  induction stack with
  | nil => exact fun m e he => H m e he
  | cons here rest ih =>
      intro m e
      unfold repeatGive
      rcases h : checkSuffix m with ⟨ok, m'⟩
      have h1 := fun e he => H m e (h ▸ he : e ∈ (checkSuffix m).2.captures)
      cases ok
      · intro he
        rcases ih (m'.recall here) e he with he' | hq
        · exact h1 e (recall_mem e he')
        · exact Or.inr hq
      · exact fun he => h1 e he

mutual
theorem checkGroup_mem (g : Group Str') (m : Matcher) :
    ∀ e ∈ (checkGroup g m).2.captures,
      e ∈ m.captures ∨ e.1 ∈ groupNums g := by
  match g with
  | .mk number branches =>
      simp only [checkGroup, groupNums]
      intro e he
      rcases goBranches_mem number m.mark branches m e he with h | h | h
      · exact Or.inl h
      · exact Or.inr (h ▸ List.mem_cons_self _ _)
      · exact Or.inr (List.mem_cons_of_mem _ h)
termination_by sizeOf g

theorem goBranches_mem (number : Nat) (here : Checkpoint)
    (bs : List (Branch Str')) (m : Matcher) :
    ∀ e ∈ (goBranches number here bs m).2.captures,
      e ∈ m.captures ∨ e.1 = number ∨ e.1 ∈ branchesNums bs := by
  match bs with
  | [] => exact fun e he => Or.inl he
  | b :: rest =>
      simp only [goBranches]
      rcases hcb : checkBranch b m with ⟨ok, m1⟩
      have h1 := fun e he =>
        checkBranch_mem b m e (hcb ▸ he : e ∈ (checkBranch b m).2.captures)
      cases ok
      · intro e he
        rcases goBranches_mem number here rest (m1.recall here) e he with h | h | h
        · rcases h1 e (recall_mem e h) with h' | h'
          · exact Or.inl h'
          · exact Or.inr (Or.inr (by simp [branchesNums, h']))
        · exact Or.inr (Or.inl h)
        · exact Or.inr (Or.inr (by simp [branchesNums]; exact Or.inr h))
      · intro e he
        rcases capture_mem e he with h | h
        · rcases h1 e h with h' | h'
          · exact Or.inl h'
          · exact Or.inr (Or.inr (by simp [branchesNums, h']))
        · exact Or.inr (Or.inl h)
termination_by sizeOf bs

theorem checkBranch_mem (b : Branch Str') (m : Matcher) :
    ∀ e ∈ (checkBranch b m).2.captures,
      e ∈ m.captures ∨ e.1 ∈ branchNums b := by
  match b with
  | .mk leaves =>
      simp only [checkBranch, branchNums]
      exact goLeaves_mem leaves m
termination_by sizeOf b

theorem goLeaves_mem (ls : List (Leaf Str')) (m : Matcher) :
    ∀ e ∈ (goLeaves ls m).2.captures,
      e ∈ m.captures ∨ e.1 ∈ leavesNums ls := by
  match ls with
  | [] => exact fun e he => Or.inl he
  | l :: rest =>
      simp only [goLeaves]
      rcases hcl : checkLeaf l m with ⟨ok, m1⟩
      have h1 := fun e he =>
        checkLeaf_mem l m e (hcl ▸ he : e ∈ (checkLeaf l m).2.captures)
      cases ok
      · intro e he
        rcases h1 e he with h | h
        · exact Or.inl h
        · exact Or.inr (by simp [leavesNums]; exact Or.inl h)
      · intro e he
        rcases goLeaves_mem rest m1 e he with h | h
        · rcases h1 e h with h' | h'
          · exact Or.inl h'
          · exact Or.inr (by simp [leavesNums]; exact Or.inl h')
        · exact Or.inr (by simp [leavesNums]; exact Or.inr h)
termination_by sizeOf ls

theorem checkLeaf_mem (l : Leaf Str') (m : Matcher) :
    ∀ e ∈ (checkLeaf l m).2.captures,
      e ∈ m.captures ∨ e.1 ∈ leafNums l := by
  match l with
  | .anchorStart => exact fun e he => Or.inl he
  | .anchorEnd => exact fun e he => Or.inl he
  | .group g =>
      intro e he
      rcases checkGroup_mem g m e he with h | h
      · exact Or.inl h
      · exact Or.inr (by simp only [leafNums]; exact h)
  | .raw s => exact fun e he => Or.inl ((checkStr_preservesC m s).2.2 ▸ he)
  | .payload s => exact fun e he => Or.inl ((checkStr_preservesC m s).2.2 ▸ he)
  | .cls c => exact fun e he => Or.inl ((checkClass_preservesC m c).2.2 ▸ he)
  | .rep pre times suffix =>
      have Hpre : ∀ mm e, e ∈ (checkLeaf pre mm).2.captures →
          e ∈ mm.captures ∨ e.1 ∈ leafNums pre :=
        fun mm e he => checkLeaf_mem pre mm e he
      have Hsuf : ∀ mm e, e ∈ (checkBranch suffix mm).2.captures →
          e ∈ mm.captures ∨ e.1 ∈ branchNums suffix :=
        fun mm e he => checkBranch_mem suffix mm e he
      simp only [checkLeaf]
      rcases hb : repBounds times with ⟨mn, mx⟩
      dsimp only
      rcases hmin : repeatMin (fun mm => checkLeaf pre mm) mn m with ⟨ok, m1⟩
      have h1 := fun e he => repeatMin_mem Hpre mn m e
        (hmin ▸ he : e ∈ (repeatMin (fun mm => checkLeaf pre mm) mn m).2.captures)
      cases ok
      · intro e he
        rcases h1 e he with h | h
        · exact Or.inl h
        · exact Or.inr (by simp [leafNums]; exact Or.inl h)
      · dsimp only
        rcases hg : repeatGrow (fun mm => checkLeaf pre mm)
            ((mx.getD (m.haystack.drop m.right).length) - mn) [] m1 with ⟨stack, m2⟩
        have h2 := fun e he => repeatGrow_mem Hpre
          ((mx.getD (m.haystack.drop m.right).length) - mn) [] m1 e
          (hg ▸ he : e ∈ (repeatGrow (fun mm => checkLeaf pre mm)
            ((mx.getD (m.haystack.drop m.right).length) - mn) [] m1).2.captures)
        intro e he
        rcases repeatGive_mem Hsuf stack m2 e he with h | h
        · rcases h2 e h with h' | h'
          · rcases h1 e h' with h'' | h''
            · exact Or.inl h''
            · exact Or.inr (by simp [leafNums]; exact Or.inl h'')
          · exact Or.inr (by simp [leafNums]; exact Or.inl h')
        · exact Or.inr (by simp [leafNums]; exact Or.inr h)
termination_by sizeOf l
end

end Backpat

namespace Backpat

/-- Characterization of the start-offset loop on a contiguous offset range,
with fresh captures: the loop returns the first offset whose root-group
attempt succeeds (each failed attempt restores the matcher exactly, so
later attempts start from fresh captures again). -/
theorem rootLoop_range'_spec (a : Ast Str') (orig : List Char) :
    ∀ (len start : Nat),
      (rootLoop a.root orig a.ignoreCase (List.range' start len) [] = none ↔
        ∀ l, start ≤ l → l < start + len → (a.matchesAt orig l).1 = false)
      ∧ (∀ caps,
          rootLoop a.root orig a.ignoreCase (List.range' start len) [] = some caps ↔
          ∃ l, start ≤ l ∧ l < start + len ∧ (a.matchesAt orig l).1 = true ∧
            (∀ l', start ≤ l' → l' < l → (a.matchesAt orig l').1 = false) ∧
            caps = (a.matchesAt orig l).2.captures) := by
  intro len
  induction len with
  | zero =>
      intro start
      constructor
      · simp only [List.range', rootLoop]
        constructor
        · intro _ l h1 h2
          omega
        · intro _; trivial
      · intro caps
        simp only [List.range', rootLoop]
        constructor
        · intro h; cases h
        · rintro ⟨l, h1, h2, _⟩
          omega
  | succ k ih =>
      intro start
      have hrange : List.range' start (k + 1) = start :: List.range' (start + 1) k :=
        List.range'_succ _ _ _
      rw [hrange]
      simp only [rootLoop]
      rcases hA : checkGroup a.root
          { haystack := orig.drop start, captures := [],
            ignoreCase := a.ignoreCase, right := 0 } with ⟨ok, m'⟩
      have hAm : a.matchesAt orig start = (ok, m') := hA
      cases ok
      · -- the attempt at `start` fails and restores the state exactly
        dsimp only
        have hres := checkGroup_false_restore _ _ _ hA
        have hcaps : m'.captures = [] := by rw [hres]
        rw [hcaps]
        have ihs := ih (start + 1)
        constructor
        · rw [ihs.1]
          constructor
          · intro h l h1 h2
            rcases Nat.eq_or_lt_of_le h1 with rfl | h1'
            · rw [hAm]
            · exact h l h1' (by omega)
          · intro h l h1 h2
            exact h l (by omega) (by omega)
        · intro caps
          rw [ihs.2 caps]
          constructor
          · rintro ⟨l, h1, h2, h3, h4, h5⟩
            refine ⟨l, by omega, by omega, h3, ?_, h5⟩
            intro l' hl1 hl2
            rcases Nat.eq_or_lt_of_le hl1 with rfl | hl1'
            · rw [hAm]
            · exact h4 l' hl1' hl2
          · rintro ⟨l, h1, h2, h3, h4, h5⟩
            have hne : l ≠ start := by
              intro hcon
              subst hcon
              rw [hAm] at h3
              cases h3
            refine ⟨l, by omega, by omega, h3, ?_, h5⟩
            intro l' hl1 hl2
            exact h4 l' (by omega) hl2
      · -- the attempt at `start` succeeds: leftmost offset found
        dsimp only
        constructor
        · constructor
          · intro h; cases h
          · intro h
            have := h start (le_refl _) (by omega)
            rw [hAm] at this
            cases this
        · intro caps
          constructor
          · intro h
            injection h with h
            exact ⟨start, le_refl _, by omega, by rw [hAm],
              fun l' h1 h2 => by omega, by rw [hAm, ← h]⟩
          · rintro ⟨l, h1, h2, h3, h4, h5⟩
            rcases Nat.eq_or_lt_of_le h1 with rfl | h1'
            · rw [hAm] at h5
              rw [h5]
            · have := h4 start (le_refl _) h1'
              rw [hAm] at this
              cases this

end Backpat

namespace Backpat

/-- C5: `match(p, h)` tries start offsets in increasing order, one code
point at a time, and returns the captures of the earliest offset at which
the root group matches; it returns no match exactly when the root group
matches at no offset; and every captured group number is syntactically
present in the pattern. -/
theorem matches_leftmost_first (a : Ast Str') (h : List Char) :
    (∀ caps, a.matches h = some caps ↔
      ∃ left, left < h.length ∧ (a.matchesAt h left).1 = true ∧
        (∀ l', l' < left → (a.matchesAt h l').1 = false) ∧
        caps = (a.matchesAt h left).2.captures)
    ∧ (a.matches h = none ↔
        ∀ left, left < h.length → (a.matchesAt h left).1 = false)
    ∧ (∀ caps, a.matches h = some caps → ∀ e ∈ caps, e.1 ∈ groupNums a.root) := by
  have hspec := rootLoop_range'_spec a h h.length 0
  have hmr : List.range h.length = List.range' 0 h.length := List.range_eq_range' _
  unfold Ast.matches
  rw [hmr]
  refine ⟨?_, ?_, ?_⟩
  · intro caps
    rw [hspec.2 caps]
    constructor
    · rintro ⟨l, _, h2, h3, h4, h5⟩
      exact ⟨l, by omega, h3, fun l' hl => h4 l' (by omega) hl, h5⟩
    · rintro ⟨l, h2, h3, h4, h5⟩
      exact ⟨l, by omega, by omega, h3, fun l' _ hl => h4 l' hl, h5⟩
  · rw [hspec.1]
    constructor
    · intro hh l hl
      exact hh l (by omega) (by omega)
    · intro hh l _ hl
      exact hh l (by omega)
  · intro caps hc e he
    rw [hspec.2 caps] at hc
    obtain ⟨l, _, _, _, _, h5⟩ := hc
    rw [h5] at he
    rcases checkGroup_mem a.root
        { haystack := h.drop l, captures := [], ignoreCase := a.ignoreCase,
          right := 0 } e he with h' | h'
    · exact absurd h' (List.not_mem_nil e)
    · exact h'

/-- Witness for `matches_leftmost_first` at the pattern `a` and haystack
`"ba"`: the match is found at offset 1, after offset 0 fails. -/
theorem matches_leftmost_first_witness :
    (Ast.mk (Group.mk 0 [Branch.mk [Leaf.raw ['a']]]) false).matches
        ['b', 'a'] = some [(0, 0, 1)] ∧
    (0, 0, 1).1 ∈ groupNums
      (Group.mk 0 [Branch.mk [Leaf.raw ['a']]] : Backpat.Group Str') := by
  refine ⟨?_, ?_⟩
  · exact ((matches_leftmost_first _ _).1 [(0, 0, 1)]).mpr
      ⟨1, by decide, by decide, fun l' hl => by
        have hl0 : l' = 0 := by omega
        subst hl0
        decide, by decide⟩
  · exact (matches_leftmost_first
        (Ast.mk (Group.mk 0 [Branch.mk [Leaf.raw ['a']]]) false) ['b', 'a']).2.2
      [(0, 0, 1)] (by decide) (0, 0, 1) (by decide)

/-- C4: a successful match's captures hold at most one entry per group
number; `Matcher::capture` ignores a number already captured and otherwise
appends `(num, checkpoint, current)`, and a failed group attempt unwinds
its state (captures included) exactly via `recall`. -/
theorem capture_first_wins (a : Ast Str') (h : List Char) (caps : Captures) :
    (a.matches h = some caps → (caps.map (fun e => e.1)).Nodup)
    ∧ (∀ (m : Matcher) (num : Nat) (here : Checkpoint),
        (m.captures.any (fun e => e.1 == num) = true → m.capture num here = m)
        ∧ (m.captures.any (fun e => e.1 == num) = false →
            m.capture num here =
              { m with captures := m.captures ++ [(num, here.right, m.right)] }))
    ∧ (∀ (g : Group Str') (m out : Matcher),
        checkGroup g m = (false, out) → out = m) := by
  refine ⟨?_, ?_, ?_⟩
  · intro hm
    have hspec := rootLoop_range'_spec a h h.length 0
    have hmr : List.range h.length = List.range' 0 h.length :=
      List.range_eq_range' _
    unfold Ast.matches at hm
    rw [hmr] at hm
    rw [hspec.2 caps] at hm
    obtain ⟨l, _, _, _, _, h5⟩ := hm
    rw [h5]
    exact checkGroup_nodup a.root
      { haystack := h.drop l, captures := [], ignoreCase := a.ignoreCase,
        right := 0 } (by simp [NodupNums])
  · intro m num here
    constructor
    · intro hany
      unfold Matcher.capture
      rw [if_pos hany]
    · intro hany
      unfold Matcher.capture
      rw [if_neg (by rw [hany]; exact Bool.false_ne_true)]
  · exact fun g m out hg => checkGroup_false_restore g m out hg

/-- Witness for `capture_first_wins`: a two-branch group whose second
branch matches; the failed first branch unwinds and the root group
captures exactly once. -/
theorem capture_first_wins_witness :
    (Ast.mk (Group.mk 0 [Branch.mk [Leaf.raw ['z']], Branch.mk [Leaf.raw ['a']]])
        false).matches ['a'] = some [(0, 0, 1)] ∧
    ([(0, 0, 1)].map (fun e : Nat × Nat × Nat => e.1)).Nodup := by
  refine ⟨by decide, ?_⟩
  exact (capture_first_wins
      (Ast.mk (Group.mk 0 [Branch.mk [Leaf.raw ['z']], Branch.mk [Leaf.raw ['a']]])
        false) ['a'] [(0, 0, 1)]).1 (by decide)

/-- C2 (code bug): on the pattern `\d+x` and haystack `"12ax"`, the greedy
loop's failed class probe consumes `'a'` (`get_char` advances before the
digit test fails), the loop breaks without restoring, and the first suffix
attempt runs from that dirty position, so the overall match succeeds —
although the suffix `"x"` fails at every exactly-restored position
(`right = 2`, the topmost checkpoint, and `right = 1`, the minimum): under
the claimed invariant the match would fail. -/
theorem repeat_dirty_suffix_bug :
    (Ast.mk (Group.mk 0 [Branch.mk [Leaf.rep (Leaf.cls .digit) .oneOrMore
        (Branch.mk [Leaf.raw ['x']])]]) false).matches
      ['1', '2', 'a', 'x'] = some [(0, 0, 4)] ∧
    (checkBranch (Branch.mk [Leaf.raw ['x']])
      { haystack := ['1', '2', 'a', 'x'], captures := [], ignoreCase := false,
        right := 2 }).1 = false ∧
    (checkBranch (Branch.mk [Leaf.raw ['x']])
      { haystack := ['1', '2', 'a', 'x'], captures := [], ignoreCase := false,
        right := 1 }).1 = false ∧
    (checkBranch (Branch.mk [Leaf.raw ['x']])
      { haystack := ['1', '2', 'a', 'x'], captures := [], ignoreCase := false,
        right := 3 }).1 = true := by
  exact ⟨rfl, rfl, rfl, rfl⟩

end Backpat

namespace Backpat

theorem char_eq_of_toNat_eq {c d : Char} (h : c.toNat = d.toNat) : c = d :=
  Char.eq_of_val_eq (UInt32.eq_of_toBitVec_eq (BitVec.eq_of_toNat_eq h))

/-- Membership after a successful range insertion: exactly the code points
in `[lo, lo + n)` are added. -/
theorem insertRange_mem :
    ∀ (n lo : Nat) (members members' : List Char),
      insertRange members lo n = .ok members' →
      ∀ c : Char, c ∈ members' ↔ c ∈ members ∨ (lo ≤ c.toNat ∧ c.toNat < lo + n) := by
  intro n
  induction n with
  | zero =>
      intro lo members members' h c
      simp only [insertRange] at h
      injection h with h
      subst h
      constructor
      · exact fun hc => Or.inl hc
      · rintro (hc | hc)
        · exact hc
        · omega
  | succ k ih =>
      intro lo members members' h c
      simp only [insertRange] at h
      split at h
      · next hv =>
          have hmem := ih (lo + 1) _ _ h c
          rw [hmem, List.mem_insert_iff]
          have htoNat : (Char.ofNatAux lo hv).toNat = lo := rfl
          constructor
          · rintro ((rfl | hc) | hc)
            · refine Or.inr ⟨?_, ?_⟩
              · rw [htoNat]
              · rw [htoNat]; omega
            · exact Or.inl hc
            · exact Or.inr ⟨by omega, by omega⟩
          · rintro (hc | ⟨h1, h2⟩)
            · exact Or.inl (Or.inr hc)
            · rcases Nat.eq_or_lt_of_le h1 with heq | hlt
              · refine Or.inl (Or.inl ?_)
                apply char_eq_of_toNat_eq
                rw [htoNat, ← heq]
              · exact Or.inr ⟨by omega, by omega⟩
      · exact absurd h (by simp)

end Backpat

namespace Backpat

/-- The `invert` is never reset once set: a class body parsed with
`invert = true` yields `invert = true`. -/
theorem parseClassGo_invert_mono (input : List Char) :
    ∀ (prev : Option Char) (members : List Char) r,
      parseClassGo prev true members input = .ok r → r.1.1 = true := by
  match input with
  | [] =>
      intro prev members r h
      exact Except.noConfusion h
  | ch :: rest =>
      intro prev members r h
      unfold parseClassGo at h
      split at h
      · injection h with h
        rw [← h]
      · split at h
        · exact parseClassGo_invert_mono rest none members r h
        · split at h
          · split at h
            · exact Except.noConfusion h
            · next next rest2 =>
                split at h
                · split at h
                  · split at h
                    · exact Except.noConfusion h
                    · split at h
                      · exact Except.noConfusion h
                      · exact parseClassGo_invert_mono rest2 none _ r h
                  · exact parseClassGo_invert_mono (next :: rest2) (some '-') _ r h
                · exact parseClassGo_invert_mono (next :: rest2) (some '-') _ r h
          · exact parseClassGo_invert_mono rest (some ch) _ r h
termination_by input.length

end Backpat

namespace Backpat

/-- C8: parsing a character-class body: `^` first sets `invert`; a range
`x-y` adds exactly the code points `x ≤ c < y` and is a parse error when
`x ≥ y`; `-` at a boundary is a literal member; `]` closes the class. -/
theorem parse_class_contract :
    (∀ (input : List Char) r, parseClass ('^' :: input) = .ok r → r.1.1 = true)
    ∧ (∀ (p next : Char) (invert : Bool) (members rest : List Char),
        next ≠ ']' →
        (p.toNat ≥ next.toNat →
          parseClassGo (some p) invert members ('-' :: next :: rest) =
            .error .bad)
        ∧ (p.toNat < next.toNat →
            ∀ members',
              insertRange members p.toNat (next.toNat - p.toNat) = .ok members' →
              parseClassGo (some p) invert members ('-' :: next :: rest) =
                parseClassGo none invert members' rest
              ∧ ∀ c : Char, c ∈ members' ↔
                  c ∈ members ∨ (p.toNat ≤ c.toNat ∧ c.toNat < next.toNat)))
    ∧ (∀ (prev : Option Char) (invert : Bool) (members rest : List Char),
        parseClassGo prev invert members ('-' :: ']' :: rest) =
          .ok ((invert, members.insert '-'), rest))
    ∧ (∀ (invert : Bool) (members rest : List Char) (next : Char),
        next ≠ ']' →
        parseClassGo none invert members ('-' :: next :: rest) =
          parseClassGo (some '-') invert (members.insert '-') (next :: rest))
    ∧ (∀ (prev : Option Char) (invert : Bool) (members rest : List Char),
        parseClassGo prev invert members (']' :: rest) =
          .ok ((invert, members), rest)) := by
  refine ⟨?_, ?_, ?_, ?_, ?_⟩
  · intro input r h
    unfold parseClass parseClassGo at h
    simp only [reduceIte] at h
    exact parseClassGo_invert_mono input none [] r h
  · intro p next invert members rest hnext
    constructor
    · intro hge
      conv_lhs => unfold parseClassGo
      simp [hnext, hge]
    · intro hlt members' hins
      constructor
      · conv_lhs => unfold parseClassGo
        simp [hnext, Nat.not_le.mpr hlt, hins]
      · intro c
        have := insertRange_mem (next.toNat - p.toNat) p.toNat members members' hins c
        rw [this]
        constructor
        · rintro (hc | ⟨h1, h2⟩)
          · exact Or.inl hc
          · exact Or.inr ⟨h1, by omega⟩
        · rintro (hc | ⟨h1, h2⟩)
          · exact Or.inl hc
          · exact Or.inr ⟨h1, by omega⟩
  · intro prev invert members rest
    conv_lhs => unfold parseClassGo
    simp only [reduceIte]
    conv_lhs => unfold parseClassGo
    simp
  · intro invert members rest next hnext
    conv_lhs => unfold parseClassGo
    simp [hnext]
  · intro prev invert members rest
    conv_lhs => unfold parseClassGo
    simp

end Backpat

namespace Canary

/-- C7: a call dispatches to the function body iff the argument count
satisfies the callee's arity class; otherwise it fails with `WrongArgc`
carrying the function name, the expected arity class, and the actual
count. -/
theorem call_checks_arity (functions : List (String × (Argc × Func)))
    (name : String) (argv : List Value) (wanted : Argc) (func : Func)
    (hlook : functions.lookup name = some (wanted, func)) :
    (wanted.admits argv.length → Program.call functions name argv = .ok func)
    ∧ (¬ wanted.admits argv.length →
        Program.call functions name argv =
          .error (.wrongArgc name wanted argv.length)) := by
  unfold Program.call
  rw [hlook]
  cases wanted with
  | exactly n =>
      simp only [Argc.admits]
      constructor
      · intro h
        rw [if_pos h]
      · intro h
        rw [if_neg h]
  | atLeast n =>
      simp only [Argc.admits]
      constructor
      · intro h
        rw [if_pos h]
      · intro h
        rw [if_neg h]

/-- Witness for `call_checks_arity`: a two-argument function called with
two and with one argument. -/
theorem call_checks_arity_witness :
    Program.call [("f", (.exactly 2, .interpreted []))] "f" [.nil, .nil] =
      .ok (.interpreted [])
    ∧ Program.call [("f", (.exactly 2, .interpreted []))] "f" [.nil] =
      .error (.wrongArgc "f" (.exactly 2) 1) := by
  constructor
  · exact (call_checks_arity [("f", (.exactly 2, .interpreted []))] "f"
      [.nil, .nil] (.exactly 2) (.interpreted []) rfl).1 (by decide)
  · exact (call_checks_arity [("f", (.exactly 2, .interpreted []))] "f"
      [.nil] (.exactly 2) (.interpreted []) rfl).2 (by decide)

/-- The list arm of `Value::insert`, unfolded. -/
theorem value_insert_list (l : List Value) (k : Int) (v : Value) :
    Value.insert (.list l) (.int k) v =
      if k < 0 then .error .negativeIndex
      else if k.toNat > l.length then .error .indexOutOfBounds
      else match vecSet l k.toNat v with
        | some lhs' => .ok (some (.list lhs'))
        | none => .ok none := rfl

/-- C9: indexed assignment into a list of length `n`: negative keys and
keys `> n` are errors, key `= n` passes the bounds check and panics in the
element store (`.ok none`), and only `0 ≤ k < n` stores totally. -/
theorem insert_bounds (l : List Value) (k : Int) (v : Value) :
    (k < 0 → Value.insert (.list l) (.int k) v = .error .negativeIndex)
    ∧ (0 ≤ k → k.toNat > l.length →
        Value.insert (.list l) (.int k) v = .error .indexOutOfBounds)
    ∧ (0 ≤ k → k.toNat = l.length →
        Value.insert (.list l) (.int k) v = .ok none)
    ∧ (0 ≤ k → k.toNat < l.length →
        Value.insert (.list l) (.int k) v =
          .ok (some (.list (l.set k.toNat v)))) := by
  refine ⟨?_, ?_, ?_, ?_⟩
  · intro hk
    rw [value_insert_list, if_pos hk]
  · intro hk0 hk
    rw [value_insert_list, if_neg (Int.not_lt.mpr hk0), if_pos hk]
  · intro hk0 hk
    rw [value_insert_list, if_neg (Int.not_lt.mpr hk0),
      if_neg (by omega : ¬ k.toNat > l.length)]
    unfold vecSet
    rw [if_neg (by omega : ¬ k.toNat < l.length)]
  · intro hk0 hk
    rw [value_insert_list, if_neg (Int.not_lt.mpr hk0),
      if_neg (by omega : ¬ k.toNat > l.length)]
    unfold vecSet
    rw [if_pos hk]

end Canary

namespace Canary

/-- Witness for `insert_bounds` on the one-element list `[nil]`: all four
regimes at concrete keys. -/
theorem insert_bounds_witness :
    Value.insert (.list [.nil]) (.int (-1)) (.int 5) = .error .negativeIndex
    ∧ Value.insert (.list [.nil]) (.int 2) (.int 5) = .error .indexOutOfBounds
    ∧ Value.insert (.list [.nil]) (.int 1) (.int 5) = .ok none
    ∧ Value.insert (.list [.nil]) (.int 0) (.int 5) =
        .ok (some (.list [.int 5])) := by
  refine ⟨?_, ?_, ?_, ?_⟩
  · exact (insert_bounds [.nil] (-1) (.int 5)).1 (by decide)
  · exact (insert_bounds [.nil] 2 (.int 5)).2.1 (by decide) (by decide)
  · exact (insert_bounds [.nil] 1 (.int 5)).2.2.1 (by decide) (by decide)
  · exact (insert_bounds [.nil] 0 (.int 5)).2.2.2 (by decide) (by decide)

/-- C10: adding a non-list value to a list builds a fresh one-element list
holding only the right operand (the left operand's elements are dropped),
while list + list concatenates. -/
theorem add_list_one_element (l : List Value) (v : Value) :
    ((∀ l', v ≠ .list l') → Value.add (.list l) v = .ok (.list [v]))
    ∧ (∀ l', Value.add (.list l) (.list l') = .ok (.list (l ++ l'))) := by
  constructor
  · intro hv
    cases v with
    | list l' => exact absurd rfl (hv l')
    | nil => rfl
    | int i => rfl
    | str s => rfl
    | ident id => rfl
    | record fields => rfl
    | pat p => rfl
  · intro l'
    rfl

/-- Witness for `add_list_one_element`: `[1, 2] + 7` is the fresh list
`[7]`; `[1] + [2]` concatenates. -/
theorem add_list_one_element_witness :
    Value.add (.list [.int 1, .int 2]) (.int 7) = .ok (.list [.int 7])
    ∧ Value.add (.list [.int 1]) (.list [.int 2]) =
        .ok (.list [.int 1, .int 2]) := by
  constructor
  · exact (add_list_one_element [.int 1, .int 2] (.int 7)).1
      (fun l' h => Value.noConfusion h)
  · exact (add_list_one_element [.int 1] (.int 2 : Value)).2 [.int 2]

/-- C3: `MARK{len}` fails with the mark-too-high error iff
`len > locals.length`; otherwise it sets `mark := len` and truncates
`locals` to its first `len` slots, leaving the slots below `len`
unchanged. -/
theorem mark_sets_and_truncates (s : Interp) (len : Nat)
    (hop : fetchOp s.frame.code s.frame.pc = .ok (.MARK len)) :
    (step s = .error .markTooHigh ↔ len > s.frame.locals.length)
    ∧ (len ≤ s.frame.locals.length →
        step s = .ok { s with frame := { s.frame with
            pc := s.frame.pc + 1, mark := len,
            locals := s.frame.locals.take len } }
        ∧ (s.frame.locals.take len).length = len
        ∧ ∀ i < len, (s.frame.locals.take len)[i]? = s.frame.locals[i]?) := by
  have hstep : step s =
      if len > s.frame.locals.length then .error .markTooHigh
      else .ok { s with frame := { s.frame with
          pc := s.frame.pc + 1, mark := len,
          locals := s.frame.locals.take len } } := by
    unfold step
    rw [hop]
    rfl
  constructor
  · rw [hstep]
    constructor
    · intro h
      by_contra hc
      rw [if_neg hc] at h
      exact Except.noConfusion h
    · intro h
      rw [if_pos h]
  · intro hle
    refine ⟨?_, ?_, ?_⟩
    · rw [hstep, if_neg (by omega)]
    · rw [List.length_take]
      omega
    · intro i hi
      exact List.getElem?_take_of_lt (by omega)

end Canary

namespace Canary

/-- Witness for `mark_sets_and_truncates`: `MARK 1` on two stacked values
truncates to one slot; `MARK 1` on an empty stack is the mark-too-high
error. -/
theorem mark_sets_and_truncates_witness :
    step { frame := { code := [.MARK 1], mark := 0,
                      locals := [.int 3, .int 4], groups := [], pc := 0 },
           saved := [], globals := [], functions := [] } =
      .ok { frame := { code := [.MARK 1], mark := 1,
                       locals := [.int 3], groups := [], pc := 1 },
            saved := [], globals := [], functions := [] }
    ∧ step (initState [.MARK 1]) = .error .markTooHigh := by
  constructor
  · exact ((mark_sets_and_truncates
      { frame := { code := [.MARK 1], mark := 0,
                   locals := [.int 3, .int 4], groups := [], pc := 0 },
        saved := [], globals := [], functions := [] } 1 rfl).2 (by decide)).1
  · exact (mark_sets_and_truncates (initState [.MARK 1]) 1 rfl).1.mpr (by decide)

/-- C1 (amended): single pops protect the reserved region — on success the
new length still bounds `mark`, and a pop that would dip below `mark`
fails (`PoppedLocalVar`, or `StackUnderflow` on an empty `locals`) — but
the bulk capture of CALL/LIST/STR checks only the total length: it
succeeds whenever `len ≤ locals.length`, removing the top `len` entries
even when that leaves `locals.length < mark`. -/
theorem pop_checks_mark_capture_does_not (f : Frame) (len : Nat) :
    (f.locals = [] → popValue f = .error .stackUnderflow)
    ∧ (f.locals ≠ [] → f.locals.length ≤ f.mark →
        popValue f = .error .poppedLocalVar)
    ∧ (∀ v fr, popValue f = .ok (v, fr) → f.mark ≤ fr.locals.length)
    ∧ (len > f.locals.length → captureVals f len = .error .listTooLong)
    ∧ (len ≤ f.locals.length →
        captureVals f len = .ok (f.locals.drop (f.locals.length - len),
          { f with locals := f.locals.take (f.locals.length - len) })
        ∧ (f.locals.take (f.locals.length - len)).length =
            f.locals.length - len) := by
  refine ⟨?_, ?_, ?_, ?_, ?_⟩
  · intro h
    unfold popValue
    rw [h]
    rfl
  · intro hne hlen
    unfold popValue
    rcases hl : f.locals.getLast? with _ | v
    · exact absurd (List.getLast?_eq_none_iff.mp hl) hne
    · dsimp only
      rw [if_pos (by
        rw [List.length_dropLast]
        have hne' : f.locals.length ≠ 0 := fun hc =>
          hne (List.length_eq_zero.mp hc)
        omega)]
  · intro v fr h
    unfold popValue at h
    rcases hl : f.locals.getLast? with _ | w
    · rw [hl] at h
      exact Except.noConfusion h
    · rw [hl] at h
      dsimp only at h
      split at h
      · exact Except.noConfusion h
      · next hlt =>
          injection h with h
          injection h with h1 h2
          rw [← h2]
          exact Nat.le_of_not_lt hlt
  · intro h
    unfold captureVals
    rw [if_pos h]
  · intro h
    constructor
    · unfold captureVals
      rw [if_neg (by omega)]
    · rw [List.length_take]
      omega

/-- C1 (counterexample to the claim as stated): from a fresh frame, the
program `NIL; NIL; MARK 2; LIST 2` executes without error and ends with
`locals.length = 1 < 2 = mark`: the LIST capture removed entries below
`mark` and no operation failed. -/
theorem capture_below_mark_counterexample :
    (stepN 4 (initState [.NIL, .NIL, .MARK 2, .LIST 2])).toOption.map
        (fun s => (s.frame.locals.length, s.frame.mark)) = some (1, 2) := by
  rfl

/-- Witness for `pop_checks_mark_capture_does_not` at a concrete frame
(`locals = [3]`, `mark = 1`): the single pop fails, the bulk capture
succeeds and leaves the frame empty below its mark. -/
theorem pop_checks_mark_capture_does_not_witness :
    popValue { code := [], mark := 1, locals := [.int 3], groups := [], pc := 0 } =
      .error .poppedLocalVar
    ∧ captureVals
        { code := [], mark := 1, locals := [.int 3], groups := [], pc := 0 } 1 =
      .ok ([.int 3],
        { code := [], mark := 1, locals := [], groups := [], pc := 0 }) := by
  constructor
  · exact (pop_checks_mark_capture_does_not
      { code := [], mark := 1, locals := [.int 3], groups := [], pc := 0 }
      1).2.1 (by simp) (by decide)
  · exact ((pop_checks_mark_capture_does_not
      { code := [], mark := 1, locals := [.int 3], groups := [], pc := 0 }
      1).2.2.2.2 (by decide)).1

end Canary

namespace Canary

theorem stepN_succ_ok {s t : Interp} (n : Nat) (h : step s = .ok t) :
    stepN (n + 1) s = stepN n t := by
  rw [show stepN (n + 1) s = (step s) >>= stepN n from rfl, h]
  rfl

theorem stepN_add (a b : Nat) (s : Interp) :
    stepN (a + b) s = (stepN a s) >>= stepN b := by
  induction a generalizing s with
  | zero =>
      rw [Nat.zero_add]
      rfl
  | succ k ih =>
      rcases h : step s with e | t
      · rw [show k + 1 + b = (k + b) + 1 from by omega]
        rw [show stepN ((k + b) + 1) s = (step s) >>= stepN (k + b) from rfl, h]
        rw [show stepN (k + 1) s = (step s) >>= stepN k from rfl, h]
        rfl
      · rw [show k + 1 + b = (k + b) + 1 from by omega]
        rw [stepN_succ_ok (k + b) h, stepN_succ_ok k h, ih t]

theorem reaches_trans {s t u : Interp} (h1 : Reaches s t) (h2 : Reaches t u) :
    Reaches s u := by
  obtain ⟨a, ha⟩ := h1
  obtain ⟨b, hb⟩ := h2
  exact ⟨a + b, by rw [stepN_add, ha]; exact hb⟩

/-- Popping a frame whose operand stack ends with `va`, with `mark` at or
below the rest. -/
theorem popValue_concat (f : Frame) (stk : List Value) (va : Value)
    (hl : f.locals = stk ++ [va]) (hm : f.mark ≤ stk.length) :
    popValue f = .ok (va, { f with locals := stk }) := by
  unfold popValue
  rw [hl, List.getLast?_concat]
  dsimp only
  rw [List.dropLast_concat, if_neg (by omega)]

/-- Fetching from the middle section of `lhs ++ glue ++ rhs`. -/
theorem fetchOp_append_middle (l1 g r : List Op) (i : Nat) (op : Op)
    (hi : i < g.length) (hg : g.get? i = some op) :
    fetchOp (l1 ++ g ++ r) (l1.length + i) = .ok op := by
  unfold fetchOp
  rw [List.append_assoc, List.get?_eq_getElem?,
    List.getElem?_append_right (by omega),
    show l1.length + i - l1.length = i from by omega,
    List.getElem?_append_left hi, ← List.get?_eq_getElem?, hg]

theorem extractBool_boolToValue (b : Bool) :
    extractBool (boolToValue b) = b := by
  cases b <;> rfl

end Canary


namespace Canary

theorem or_glue_run (lhsCode rhsCode : List Op) (stk : List Value)
    (va : Value) (mk : Nat) (g : List (Nat × String)) (sv : List Frame)
    (gl : List (String × Value)) (fns : List (String × (Argc × Func)))
    (s0 : Interp) (hmark : mk ≤ stk.length)
    (hreach : Reaches s0
      (mkInterp (emitOr lhsCode rhsCode) mk (stk ++ [va]) g
        lhsCode.length sv gl fns)) :
    (extractBool va = true →
      Reaches s0 (mkInterp (emitOr lhsCode rhsCode) mk (stk ++ [va]) g
        (emitOr lhsCode rhsCode).length sv gl fns))
    ∧ (extractBool va = false →
      Reaches s0 (mkInterp (emitOr lhsCode rhsCode) mk stk g
        (lhsCode.length + 3) sv gl fns)) := by
  have hf0 : fetchOp (emitOr lhsCode rhsCode) lhsCode.length = .ok .DUP := by
    have h := fetchOp_append_middle lhsCode
      [.DUP, .JNZ (lhsCode.length + 3 + rhsCode.length), .DROP] rhsCode 0 .DUP
      (by simp) rfl
    rw [Nat.add_zero] at h
    exact h
  have hf1 : fetchOp (emitOr lhsCode rhsCode) (lhsCode.length + 1) =
      .ok (.JNZ (lhsCode.length + 3 + rhsCode.length)) :=
    fetchOp_append_middle lhsCode _ rhsCode 1 _ (by simp) rfl
  have hf2 : fetchOp (emitOr lhsCode rhsCode) (lhsCode.length + 2) =
      .ok .DROP :=
    fetchOp_append_middle lhsCode _ rhsCode 2 _ (by simp) rfl
  have hlen : (emitOr lhsCode rhsCode).length =
      lhsCode.length + 3 + rhsCode.length := by
    simp [emitOr]
    omega
  have e1 : step (mkInterp (emitOr lhsCode rhsCode) mk (stk ++ [va]) g
        lhsCode.length sv gl fns) =
      .ok (mkInterp (emitOr lhsCode rhsCode) mk (stk ++ [va] ++ [va]) g
        (lhsCode.length + 1) sv gl fns) := by
    unfold step mkInterp
    rw [hf0]
    dsimp only
    rw [popValue_concat _ stk va rfl hmark]
    rfl
  have e2t : extractBool va = true →
      step (mkInterp (emitOr lhsCode rhsCode) mk (stk ++ [va] ++ [va]) g
        (lhsCode.length + 1) sv gl fns) =
      .ok (mkInterp (emitOr lhsCode rhsCode) mk (stk ++ [va]) g
        (lhsCode.length + 3 + rhsCode.length) sv gl fns) := by
    intro hb
    unfold step
    simp only [mkInterp]
    rw [hf1, popValue_concat _ (stk ++ [va]) va rfl
      (by show mk ≤ (stk ++ [va]).length; rw [List.length_append]; omega)]
    show (if extractBool va = true then
        Except.ok (mkInterp (emitOr lhsCode rhsCode) mk (stk ++ [va]) g
          (lhsCode.length + 3 + rhsCode.length) sv gl fns)
      else
        Except.ok (mkInterp (emitOr lhsCode rhsCode) mk (stk ++ [va]) g
          (lhsCode.length + 2) sv gl fns)) = _
    rw [if_pos hb]
    rfl
  have e2f : extractBool va = false →
      step (mkInterp (emitOr lhsCode rhsCode) mk (stk ++ [va] ++ [va]) g
        (lhsCode.length + 1) sv gl fns) =
      .ok (mkInterp (emitOr lhsCode rhsCode) mk (stk ++ [va]) g
        (lhsCode.length + 2) sv gl fns) := by
    intro hb
    unfold step
    simp only [mkInterp]
    rw [hf1, popValue_concat _ (stk ++ [va]) va rfl
      (by show mk ≤ (stk ++ [va]).length; rw [List.length_append]; omega)]
    show (if extractBool va = true then
        Except.ok (mkInterp (emitOr lhsCode rhsCode) mk (stk ++ [va]) g
          (lhsCode.length + 3 + rhsCode.length) sv gl fns)
      else
        Except.ok (mkInterp (emitOr lhsCode rhsCode) mk (stk ++ [va]) g
          (lhsCode.length + 2) sv gl fns)) = _
    rw [if_neg (by rw [hb]; exact Bool.false_ne_true)]
    rfl
  constructor
  · intro htrue
    refine reaches_trans hreach ⟨2, ?_⟩
    rw [stepN_succ_ok 1 e1, stepN_succ_ok 0 (e2t htrue), hlen]
    rfl
  · intro hfalse
    have e3 : step (mkInterp (emitOr lhsCode rhsCode) mk (stk ++ [va]) g
          (lhsCode.length + 2) sv gl fns) =
        .ok (mkInterp (emitOr lhsCode rhsCode) mk stk g
          (lhsCode.length + 3) sv gl fns) := by
      unfold step mkInterp
      rw [hf2]
      dsimp only
      rw [popValue_concat _ stk va rfl hmark]
      rfl
    refine reaches_trans hreach ⟨3, ?_⟩
    rw [stepN_succ_ok 2 e1, stepN_succ_ok 1 (e2f hfalse), stepN_succ_ok 0 e3]
    rfl

end Canary

namespace Canary

theorem and_glue_run (lhsCode rhsCode : List Op) (stk : List Value)
    (va : Value) (mk : Nat) (g : List (Nat × String)) (sv : List Frame)
    (gl : List (String × Value)) (fns : List (String × (Argc × Func)))
    (s0 : Interp) (hmark : mk ≤ stk.length)
    (hreach : Reaches s0
      (mkInterp (emitAnd lhsCode rhsCode) mk (stk ++ [va]) g
        lhsCode.length sv gl fns)) :
    (extractBool va = false →
      Reaches s0 (mkInterp (emitAnd lhsCode rhsCode) mk (stk ++ [va]) g
        (emitAnd lhsCode rhsCode).length sv gl fns))
    ∧ (extractBool va = true →
      Reaches s0 (mkInterp (emitAnd lhsCode rhsCode) mk stk g
        (lhsCode.length + 4) sv gl fns)) := by
  have hf0 : fetchOp (emitAnd lhsCode rhsCode) lhsCode.length = .ok .DUP := by
    have h := fetchOp_append_middle lhsCode
      [.DUP, .NOT, .JNZ (lhsCode.length + 4 + rhsCode.length), .DROP] rhsCode
      0 .DUP (by simp) rfl
    rw [Nat.add_zero] at h
    exact h
  have hf1 : fetchOp (emitAnd lhsCode rhsCode) (lhsCode.length + 1) =
      .ok .NOT :=
    fetchOp_append_middle lhsCode _ rhsCode 1 _ (by simp) rfl
  have hf2 : fetchOp (emitAnd lhsCode rhsCode) (lhsCode.length + 2) =
      .ok (.JNZ (lhsCode.length + 4 + rhsCode.length)) :=
    fetchOp_append_middle lhsCode _ rhsCode 2 _ (by simp) rfl
  have hf3 : fetchOp (emitAnd lhsCode rhsCode) (lhsCode.length + 3) =
      .ok .DROP :=
    fetchOp_append_middle lhsCode _ rhsCode 3 _ (by simp) rfl
  have hlen : (emitAnd lhsCode rhsCode).length =
      lhsCode.length + 4 + rhsCode.length := by
    simp [emitAnd]
    omega
  have e1 : step (mkInterp (emitAnd lhsCode rhsCode) mk (stk ++ [va]) g
        lhsCode.length sv gl fns) =
      .ok (mkInterp (emitAnd lhsCode rhsCode) mk (stk ++ [va] ++ [va]) g
        (lhsCode.length + 1) sv gl fns) := by
    unfold step mkInterp
    rw [hf0]
    dsimp only
    rw [popValue_concat _ stk va rfl hmark]
    rfl
  have e2 : step (mkInterp (emitAnd lhsCode rhsCode) mk (stk ++ [va] ++ [va]) g
        (lhsCode.length + 1) sv gl fns) =
      .ok (mkInterp (emitAnd lhsCode rhsCode) mk
        (stk ++ [va] ++ [boolToValue (!extractBool va)]) g
        (lhsCode.length + 2) sv gl fns) := by
    unfold step mkInterp
    rw [hf1]
    dsimp only
    rw [popValue_concat _ (stk ++ [va]) va rfl
      (by show mk ≤ (stk ++ [va]).length; rw [List.length_append]; omega)]
    rfl
  have e3f : extractBool va = false →
      step (mkInterp (emitAnd lhsCode rhsCode) mk
        (stk ++ [va] ++ [boolToValue (!extractBool va)]) g
        (lhsCode.length + 2) sv gl fns) =
      .ok (mkInterp (emitAnd lhsCode rhsCode) mk (stk ++ [va]) g
        (lhsCode.length + 4 + rhsCode.length) sv gl fns) := by
    intro hb
    unfold step
    simp only [mkInterp]
    rw [hf2, popValue_concat _ (stk ++ [va]) (boolToValue (!extractBool va)) rfl
      (by show mk ≤ (stk ++ [va]).length; rw [List.length_append]; omega)]
    show (if extractBool (boolToValue (!extractBool va)) = true then
        Except.ok (mkInterp (emitAnd lhsCode rhsCode) mk (stk ++ [va]) g
          (lhsCode.length + 4 + rhsCode.length) sv gl fns)
      else
        Except.ok (mkInterp (emitAnd lhsCode rhsCode) mk (stk ++ [va]) g
          (lhsCode.length + 3) sv gl fns)) = _
    rw [if_pos (show extractBool (boolToValue (!extractBool va)) = true by
      rw [extractBool_boolToValue, hb]; rfl)]
    rfl
  have e3t : extractBool va = true →
      step (mkInterp (emitAnd lhsCode rhsCode) mk
        (stk ++ [va] ++ [boolToValue (!extractBool va)]) g
        (lhsCode.length + 2) sv gl fns) =
      .ok (mkInterp (emitAnd lhsCode rhsCode) mk (stk ++ [va]) g
        (lhsCode.length + 3) sv gl fns) := by
    intro hb
    unfold step
    simp only [mkInterp]
    rw [hf2, popValue_concat _ (stk ++ [va]) (boolToValue (!extractBool va)) rfl
      (by show mk ≤ (stk ++ [va]).length; rw [List.length_append]; omega)]
    show (if extractBool (boolToValue (!extractBool va)) = true then
        Except.ok (mkInterp (emitAnd lhsCode rhsCode) mk (stk ++ [va]) g
          (lhsCode.length + 4 + rhsCode.length) sv gl fns)
      else
        Except.ok (mkInterp (emitAnd lhsCode rhsCode) mk (stk ++ [va]) g
          (lhsCode.length + 3) sv gl fns)) = _
    rw [if_neg (by rw [extractBool_boolToValue, hb]; decide)]
    rfl
  constructor
  · intro hfalse
    refine reaches_trans hreach ⟨3, ?_⟩
    rw [stepN_succ_ok 2 e1, stepN_succ_ok 1 e2, stepN_succ_ok 0 (e3f hfalse),
      hlen]
    rfl
  · intro htrue
    have e4 : step (mkInterp (emitAnd lhsCode rhsCode) mk (stk ++ [va]) g
          (lhsCode.length + 3) sv gl fns) =
        .ok (mkInterp (emitAnd lhsCode rhsCode) mk stk g
          (lhsCode.length + 4) sv gl fns) := by
      unfold step mkInterp
      rw [hf3]
      dsimp only
      rw [popValue_concat _ stk va rfl hmark]
      rfl
    refine reaches_trans hreach ⟨4, ?_⟩
    rw [stepN_succ_ok 3 e1, stepN_succ_ok 2 e2, stepN_succ_ok 1 (e3t htrue),
      stepN_succ_ok 0 e4]
    rfl

end Canary

namespace Canary

/-- C6: the assembler's `DUP`-based short-circuit code for `or` and `and`.
For `or`, once the left operand's value `va` is on the stack at the glue
entry: if `va` is truthy, execution jumps directly past the right
operand's code — for every `rhsCode` whatsoever, so `b` is not evaluated —
with `va` itself (not a coerced boolean) still on the stack; if `va` is
falsy, `va` is dropped and control enters the right operand's code, whose
result becomes the expression's value.  For `and` the polarities are
swapped.  In particular `nil or 7` evaluates to `7` (see the witness). -/
theorem and_or_short_circuit (lhsCode rhsCode : List Op) (stk : List Value)
    (va : Value) (mk : Nat) (g : List (Nat × String)) (sv : List Frame)
    (gl : List (String × Value)) (fns : List (String × (Argc × Func)))
    (s0 : Interp) (hmark : mk ≤ stk.length) :
    (Reaches s0 (mkInterp (emitOr lhsCode rhsCode) mk (stk ++ [va]) g
        lhsCode.length sv gl fns) →
      (extractBool va = true →
        Reaches s0 (mkInterp (emitOr lhsCode rhsCode) mk (stk ++ [va]) g
          (emitOr lhsCode rhsCode).length sv gl fns))
      ∧ (extractBool va = false →
        Reaches s0 (mkInterp (emitOr lhsCode rhsCode) mk stk g
          (lhsCode.length + 3) sv gl fns)))
    ∧ (Reaches s0 (mkInterp (emitAnd lhsCode rhsCode) mk (stk ++ [va]) g
        lhsCode.length sv gl fns) →
      (extractBool va = false →
        Reaches s0 (mkInterp (emitAnd lhsCode rhsCode) mk (stk ++ [va]) g
          (emitAnd lhsCode rhsCode).length sv gl fns))
      ∧ (extractBool va = true →
        Reaches s0 (mkInterp (emitAnd lhsCode rhsCode) mk stk g
          (lhsCode.length + 4) sv gl fns))) :=
  ⟨fun hreach => or_glue_run lhsCode rhsCode stk va mk g sv gl fns s0
      hmark hreach,
   fun hreach => and_glue_run lhsCode rhsCode stk va mk g sv gl fns s0
      hmark hreach⟩

/-- Witness for `and_or_short_circuit`: `nil or 7` evaluates to `7`, and
`7 and nil` evaluates to `nil`. -/
theorem and_or_short_circuit_witness :
    Reaches (initState (emitOr [.NIL] [.PUSHI 7]))
      (mkInterp (emitOr [.NIL] [.PUSHI 7]) 0 [.int 7] [] 5 [] [] [])
    ∧ Reaches (initState (emitAnd [.PUSHI 7] [.NIL]))
      (mkInterp (emitAnd [.PUSHI 7] [.NIL]) 0 [.nil] [] 6 [] [] []) := by
  constructor
  · have h := (and_or_short_circuit [.NIL] [.PUSHI 7] [] .nil 0 [] [] [] []
      (initState (emitOr [.NIL] [.PUSHI 7])) (by decide)).1 ⟨1, by rfl⟩
    exact reaches_trans (h.2 (by rfl)) ⟨1, by rfl⟩
  · have h := (and_or_short_circuit [.PUSHI 7] [.NIL] [] (.int 7) 0 [] [] [] []
      (initState (emitAnd [.PUSHI 7] [.NIL])) (by decide)).2 ⟨1, by rfl⟩
    exact reaches_trans (h.2 (by decide)) ⟨1, by rfl⟩

end Canary

namespace Backpat

/-- Witness for `parse_class_contract` at concrete class bodies:
`[^a]x` sets invert; `c-a` is rejected; `a-c]` adds exactly `{a, b}`;
boundary `-` is literal; `]` closes. -/
theorem parse_class_contract_witness :
    ((true, ['a']), ([] : List Char)).1.1 = true
    ∧ parseClassGo (some 'c') false [] ['-', 'a'] = .error .bad
    ∧ parseClassGo (some 'a') false [] ['-', 'c', ']'] =
        parseClassGo none false ['b', 'a'] [']']
    ∧ ('b' ∈ ['b', 'a'] ↔ 'b' ∈ ([] : List Char) ∨
        ('a'.toNat ≤ 'b'.toNat ∧ 'b'.toNat < 'c'.toNat))
    ∧ parseClassGo none false [] ['-', ']'] = .ok ((false, [].insert '-'), [])
    ∧ parseClassGo none true ['z'] (']' :: ['q']) = .ok ((true, ['z']), ['q']) := by
  refine ⟨?_, ?_, ?_, ?_, ?_, ?_⟩
  · exact parse_class_contract.1 ['a', ']'] ((true, ['a']), []) (by rfl)
  · exact (parse_class_contract.2.1 'c' 'a' false [] [] (by decide)).1 (by decide)
  · exact ((parse_class_contract.2.1 'a' 'c' false [] [']'] (by decide)).2
      (by decide) ['b', 'a'] (by rfl)).1
  · exact ((parse_class_contract.2.1 'a' 'c' false [] [']'] (by decide)).2
      (by decide) ['b', 'a'] (by rfl)).2 'b'
  · exact parse_class_contract.2.2.1 none false [] []
  · exact parse_class_contract.2.2.2.2 none true ['z'] ['q']

end Backpat
